import Mathlib

/-!
Shallow embedding of the order-book simulator core
(`src/order_book_simulator/core/order_book.py`,
`src/order_book_simulator/core/order_matching_engine.py`,
`src/order_book_simulator/config/order_request.py`,
`src/order_book_simulator/config/trade.py`).

Modelling choices:
* UUIDs (`order_id`, `trader_id`) are modelled as `Nat`.
* Prices are Python floats used only with `<`, `<=`, `>=`, `=` and negation;
  they are modelled as `Int` (exact ordered arithmetic).
* Timestamps are floats used only for ordering; modelled as `Nat`.
* `sortedcontainers.SortedDict` is modelled as an association list
  `List (Int × Level)` kept sorted by key ascending; bids are keyed by the
  negated price exactly as in `order_book.py`.
* The engine's `while` loops are modelled with a fuel parameter;
  `processOrder` supplies `quantity + number of resting orders + 1` units,
  which is shown to suffice on well-formed books.
* `Trade` here records exactly the keyword arguments the engine passes to
  the pydantic `Trade(...)` constructor.  The pydantic model in `trade.py`
  declares only a subset of those fields (see `tradePyDeclaredFields` and
  `engineTradeCallFields` below); the discrepancy is analysed separately.
-/

namespace OrderBookSim

inductive Side where
  | BUY
  | SELL
deriving DecidableEq, Repr

/-- Model of `OrderRequest` from `config/order_request.py` (pydantic model). -/
structure OrderRequest where
  order_id : Nat
  timestamp : Nat
  trader_id : Nat
  side : Side
  priority : Nat
  price : Int
  quantity : Nat
deriving DecidableEq, Repr

/-- The keyword arguments the matching engine passes to `Trade(...)`
(`order_matching_engine.py`, lines 83-91 and 138-146). -/
structure Trade where
  maker_order_id : Nat
  maker_trader_id : Nat
  taker_order_id : Nat
  taker_trader_id : Nat
  price : Int
  quantity : Nat
  taker_side : Side
deriving DecidableEq, Repr

/-- One price level: the FIFO `deque` of resting orders at that price. -/
abbrev Level := List OrderRequest

/-- One side of the book: a `SortedDict` as a key-sorted association list. -/
abbrev HalfBook := List (Int × Level)

/-- Model of `OrderBook.__init__`: `bids` keyed by negated price, `asks` by price. -/
structure OrderBook where
  bids : HalfBook
  asks : HalfBook
deriving DecidableEq, Repr

def emptyBook : OrderBook := { bids := [], asks := [] }

/-- Model of `book_side[price_key] = deque()` (if absent) followed by
`book_side[price_key].append(order)`: insert into the sorted dict,
appending to the FIFO at an existing key. -/
def insertLevel (k : Int) (o : OrderRequest) : HalfBook → HalfBook
  | [] => [(k, [o])]
  | (k₀, lvl) :: rest =>
    if k = k₀ then (k₀, lvl ++ [o]) :: rest
    else if k < k₀ then (k, [o]) :: (k₀, lvl) :: rest
    else (k₀, lvl) :: insertLevel k o rest

/-- Model of `OrderBook.add_order`. -/
def addOrder (b : OrderBook) (o : OrderRequest) : OrderBook :=
  if o.side = Side.BUY then
    { b with bids := insertLevel (-o.price) o b.bids }
  else
    { b with asks := insertLevel o.price o b.asks }

/-- Model of `orders_at_price.remove(order_to_remove)` where the removed entry is the
first element with the given `order_id`: drop the first id match. -/
def removeFromLevel (oid : Nat) : Level → Level
  | [] => []
  | o :: rest => if o.order_id = oid then rest else o :: removeFromLevel oid rest

/-- Body of `OrderBook.remove_order` on one side: if the key is present and
some order at that level has the id, remove the first such order and delete
the level if it became empty; otherwise leave everything unchanged. -/
def removeSide (oid : Nat) (k : Int) : HalfBook → HalfBook
  | [] => []
  | (k₀, lvl) :: rest =>
    if k₀ = k then
      if lvl.any (fun o => o.order_id = oid) then
        (fun lvl₁ => if lvl₁.isEmpty then rest else (k₀, lvl₁) :: rest)
          (removeFromLevel oid lvl)
      else (k₀, lvl) :: rest
    else (k₀, lvl) :: removeSide oid k rest

/-- Model of `OrderBook.remove_order`. -/
def removeOrder (b : OrderBook) (o : OrderRequest) : OrderBook :=
  if o.side = Side.BUY then
    { b with bids := removeSide o.order_id (-o.price) b.bids }
  else
    { b with asks := removeSide o.order_id o.price b.asks }

/-- Model of `OrderBook.best_bid` (keys of `bids` are negated prices). -/
def bestBid (b : OrderBook) : Option Int :=
  match b.bids with
  | [] => none
  | (k, _) :: _ => some (-k)

/-- Model of `OrderBook.best_ask`. -/
def bestAsk (b : OrderBook) : Option Int :=
  match b.asks with
  | [] => none
  | (k, _) :: _ => some k

/-- The scan `for order in orders_at_best: if order.trader_id != taker.trader_id:
maker_order = order; break` — first resting order from a different trader. -/
def findEligible (tid : Nat) : Level → Option OrderRequest
  | [] => none
  | o :: rest => if o.trader_id ≠ tid then some o else findEligible tid rest

/-- Model of `maker_order.quantity -= trade_quantity`: the mutation of the deque entry in
place: decrement the quantity of the first order from a different trader. -/
def updateEligibleLevel (tid q : Nat) : Level → Level
  | [] => []
  | o :: rest =>
    if o.trader_id ≠ tid then { o with quantity := o.quantity - q } :: rest
    else o :: updateEligibleLevel tid q rest

/-- Model of the `while` loop of `MatchingEngine._match_buy_order` (fuelled).  Returns the
final book, the taker with its remaining quantity, and the emitted trades in
order. -/
def matchBuyLoop : Nat → OrderBook → OrderRequest → OrderBook × OrderRequest × List Trade
  | 0, b, taker => (b, taker, [])
  | fuel + 1, b, taker =>
    match b.asks with
    | [] => (b, taker, [])
    | (bestAskPrice, lvl) :: restAsks =>
      if taker.quantity > 0 ∧ bestAskPrice ≤ taker.price then
        match findEligible taker.trader_id lvl with
        | none => (b, taker, [])
        | some maker =>
          let tq := min taker.quantity maker.quantity
          let trade : Trade :=
            { maker_order_id := maker.order_id
              maker_trader_id := maker.trader_id
              taker_order_id := taker.order_id
              taker_trader_id := taker.trader_id
              price := maker.price
              quantity := tq
              taker_side := taker.side }
          let taker₁ : OrderRequest := { taker with quantity := taker.quantity - tq }
          let maker₁ : OrderRequest := { maker with quantity := maker.quantity - tq }
          let b₁ : OrderBook :=
            { b with asks := (bestAskPrice, updateEligibleLevel taker.trader_id tq lvl) :: restAsks }
          let b₂ : OrderBook := if maker₁.quantity = 0 then removeOrder b₁ maker₁ else b₁
          match matchBuyLoop fuel b₂ taker₁ with
          | (bF, takerF, trades) => (bF, takerF, trade :: trades)
      else (b, taker, [])

/-- Model of the `while` loop of `MatchingEngine._match_sell_order` (fuelled).  Bids are
keyed by negated price: the loop guard `taker.price <= best_bid` becomes
`taker.price ≤ -key`. -/
def matchSellLoop : Nat → OrderBook → OrderRequest → OrderBook × OrderRequest × List Trade
  | 0, b, taker => (b, taker, [])
  | fuel + 1, b, taker =>
    match b.bids with
    | [] => (b, taker, [])
    | (negBestBid, lvl) :: restBids =>
      if taker.quantity > 0 ∧ taker.price ≤ -negBestBid then
        match findEligible taker.trader_id lvl with
        | none => (b, taker, [])
        | some maker =>
          let tq := min taker.quantity maker.quantity
          let trade : Trade :=
            { maker_order_id := maker.order_id
              maker_trader_id := maker.trader_id
              taker_order_id := taker.order_id
              taker_trader_id := taker.trader_id
              price := maker.price
              quantity := tq
              taker_side := taker.side }
          let taker₁ : OrderRequest := { taker with quantity := taker.quantity - tq }
          let maker₁ : OrderRequest := { maker with quantity := maker.quantity - tq }
          let b₁ : OrderBook :=
            { b with bids := (negBestBid, updateEligibleLevel taker.trader_id tq lvl) :: restBids }
          let b₂ : OrderBook := if maker₁.quantity = 0 then removeOrder b₁ maker₁ else b₁
          match matchSellLoop fuel b₂ taker₁ with
          | (bF, takerF, trades) => (bF, takerF, trade :: trades)
      else (b, taker, [])

/-- Total number of resting orders in a half book. -/
def halfCount (hb : HalfBook) : Nat :=
  (hb.map (fun kl => kl.2.length)).sum

/-- Total number of resting orders in the book. -/
def orderCount (b : OrderBook) : Nat :=
  halfCount b.bids + halfCount b.asks

/-- Fuel supplied to the matching loop: enough for every iteration to
consume at least one unit of taker quantity or one resting order. -/
def engineFuel (b : OrderBook) (o : OrderRequest) : Nat :=
  o.quantity + orderCount b + 1

/-- The side dispatch in `MatchingEngine.process_order` (lines 34-37). -/
def engineLoop (b : OrderBook) (o : OrderRequest) : OrderBook × OrderRequest × List Trade :=
  if o.side = Side.BUY then matchBuyLoop (engineFuel b o) b o
  else matchSellLoop (engineFuel b o) b o

/-- Model of `MatchingEngine.process_order`: match, then rest any remainder. -/
def processOrder (b : OrderBook) (o : OrderRequest) : List Trade × OrderBook :=
  match engineLoop b o with
  | (b₁, o₁, trades) =>
    (trades, if o₁.quantity > 0 then addOrder b₁ o₁ else b₁)

/-- Submit a sequence of orders to the engine, accumulating all trades. -/
def runOrders (b : OrderBook) (ts : List Trade) : List OrderRequest → OrderBook × List Trade
  | [] => (b, ts)
  | o :: os =>
    match processOrder b o with
    | (newTrades, b₁) => runOrders b₁ (ts ++ newTrades) os

/-- A run starting from the empty book with no trade history. -/
def runFromEmpty (os : List OrderRequest) : OrderBook × List Trade :=
  runOrders emptyBook [] os

/-! Accounting used by the conservation property. -/

/-- Quantity of the orders with a given id resting at one level. -/
def levelQty (oid : Nat) (lvl : Level) : Nat :=
  ((lvl.filter (fun o => o.order_id = oid)).map (fun o => o.quantity)).sum

/-- Quantity of the orders with a given id resting on one side. -/
def halfQty (oid : Nat) (hb : HalfBook) : Nat :=
  (hb.map (fun kl => levelQty oid kl.2)).sum

/-- Resting quantity of an order id in the book (0 if absent). -/
def restingQty (oid : Nat) (b : OrderBook) : Nat :=
  halfQty oid b.bids + halfQty oid b.asks

/-- A trade involves an order id when it is its maker or its taker. -/
def tradeInvolves (oid : Nat) (t : Trade) : Bool :=
  t.maker_order_id = oid || t.taker_order_id = oid

/-- Filled quantity of an order id across a trade list. -/
def filledQty (oid : Nat) (ts : List Trade) : Nat :=
  ((ts.filter (tradeInvolves oid)).map (fun t => t.quantity)).sum

/-- Filled quantity of an order id as maker across a trade list. -/
def makerFilledQty (oid : Nat) (ts : List Trade) : Nat :=
  ((ts.filter (fun t => t.maker_order_id = oid)).map (fun t => t.quantity)).sum

/-- All resting orders on one side, in book order. -/
def halfOrders (hb : HalfBook) : List OrderRequest :=
  hb.flatMap (fun kl => kl.2)

/-- All resting orders of the book: bids then asks. -/
def bookOrders (b : OrderBook) : List OrderRequest :=
  halfOrders b.bids ++ halfOrders b.asks

/-- The ids of all resting orders. -/
def bookIds (b : OrderBook) : List Nat :=
  (bookOrders b).map (fun o => o.order_id)

/-! Field lists of the pydantic `Trade` model (`config/trade.py`) and of the
constructor call the engine makes (`order_matching_engine.py` lines 83-91).
`trade.py` declares no `model_config`, so pydantic's default `extra`
behaviour ignores unknown keyword arguments. -/

/-- The fields declared on the pydantic `Trade` model in `config/trade.py`. -/
def tradePyDeclaredFields : List String :=
  ["trade_id", "maker_order_id", "taker_order_id", "price", "quantity",
   "taker_side", "timestamp"]

/-- The keyword arguments the engine passes to `Trade(...)`. -/
def engineTradeCallFields : List String :=
  ["maker_order_id", "maker_trader_id", "taker_order_id", "taker_trader_id",
   "price", "quantity", "taker_side"]

/-- The fields the spec requires every `Trade` record to carry. -/
def specTradeFields : List String :=
  ["trade_id", "maker_order_id", "maker_trader_id", "taker_order_id",
   "taker_trader_id", "price", "quantity", "taker_side", "timestamp"]

/-! ### Basic lemmas about the level-scan helpers -/

theorem findEligible_mem {tid : Nat} {lvl : Level} {m : OrderRequest}
    (h : findEligible tid lvl = some m) : m ∈ lvl := by
  induction lvl with
  | nil => simp [findEligible] at h
  | cons o rest ih =>
    by_cases ho : o.trader_id ≠ tid
    · simp [findEligible, ho] at h
      simp [h]
    · simp [findEligible, ho] at h
      exact List.mem_cons_of_mem _ (ih h)

theorem findEligible_trader {tid : Nat} {lvl : Level} {m : OrderRequest}
    (h : findEligible tid lvl = some m) : m.trader_id ≠ tid := by
  induction lvl with
  | nil => simp [findEligible] at h
  | cons o rest ih =>
    by_cases ho : o.trader_id ≠ tid
    · simp [findEligible, ho] at h
      simpa [← h] using ho
    · simp [findEligible, ho] at h
      exact ih h

theorem findEligible_split (q : Nat) {tid : Nat} {lvl : Level} {m : OrderRequest}
    (h : findEligible tid lvl = some m) :
    ∃ pre post, lvl = pre ++ m :: post ∧ (∀ x ∈ pre, x.trader_id = tid) ∧
      updateEligibleLevel tid q lvl =
        pre ++ ({ m with quantity := m.quantity - q } :: post) := by
  induction lvl with
  | nil => simp [findEligible] at h
  | cons o rest ih =>
    by_cases ho : o.trader_id ≠ tid
    · simp [findEligible, ho] at h
      subst h
      exact ⟨[], rest, by simp, by simp, by simp [updateEligibleLevel, ho]⟩
    · simp [findEligible, ho] at h
      obtain ⟨pre, post, hsplit, hpre, hupd⟩ := ih h
      refine ⟨o :: pre, post, by simp [hsplit], ?_, ?_⟩
      · intro x hx
        rcases List.mem_cons.mp hx with hx | hx
        · subst hx
          simpa using ho
        · exact hpre x hx
      · simp [updateEligibleLevel, ho, hupd]

theorem findEligible_eq_none {tid : Nat} {lvl : Level} :
    findEligible tid lvl = none ↔ ∀ x ∈ lvl, x.trader_id = tid := by
  induction lvl with
  | nil => simp [findEligible]
  | cons o rest ih =>
    by_cases ho : o.trader_id ≠ tid
    · simp [findEligible, ho]
    · simp only [ne_eq, not_not] at ho
      simp [findEligible, ho, ih]

theorem removeFromLevel_of_front {oid : Nat} {pre post : Level} {x : OrderRequest}
    (hx : x.order_id = oid) (hpre : ∀ y ∈ pre, y.order_id ≠ oid) :
    removeFromLevel oid (pre ++ x :: post) = pre ++ post := by
  induction pre with
  | nil => simp [removeFromLevel, hx]
  | cons y rest ih =>
    have hy : y.order_id ≠ oid := hpre y (List.mem_cons_self y rest)
    simp only [List.cons_append, removeFromLevel, hy, if_false]
    exact congrArg (y :: ·) (ih fun z hz => hpre z (List.mem_cons_of_mem _ hz))

theorem removeFromLevel_of_absent {oid : Nat} {lvl : Level}
    (h : ∀ y ∈ lvl, y.order_id ≠ oid) : removeFromLevel oid lvl = lvl := by
  induction lvl with
  | nil => rfl
  | cons y rest ih =>
    have hy : y.order_id ≠ oid := h y (List.mem_cons_self y rest)
    simp only [removeFromLevel, hy, if_false]
    exact congrArg (y :: ·) (ih fun z hz => h z (List.mem_cons_of_mem _ hz))

/-! ### Quantity-accounting lemmas -/

theorem levelQty_nil (oid : Nat) : levelQty oid [] = 0 := rfl

theorem levelQty_cons (oid : Nat) (o : OrderRequest) (rest : Level) :
    levelQty oid (o :: rest) =
      (if o.order_id = oid then o.quantity else 0) + levelQty oid rest := by
  by_cases h : o.order_id = oid <;> simp [levelQty, h]

theorem levelQty_append (oid : Nat) (a b : Level) :
    levelQty oid (a ++ b) = levelQty oid a + levelQty oid b := by
  simp [levelQty, List.filter_append]

theorem halfQty_cons (oid : Nat) (k : Int) (lvl : Level) (hb : HalfBook) :
    halfQty oid ((k, lvl) :: hb) = levelQty oid lvl + halfQty oid hb := by
  simp [halfQty]

theorem levelQty_eq_zero_of_absent {oid : Nat} {lvl : Level}
    (h : ∀ y ∈ lvl, y.order_id ≠ oid) : levelQty oid lvl = 0 := by
  induction lvl with
  | nil => rfl
  | cons y rest ih =>
    rw [levelQty_cons, if_neg (h y (List.mem_cons_self y rest))]
    simpa using ih fun z hz => h z (List.mem_cons_of_mem _ hz)

/-! ### Well-formedness of the book (spec §3 invariants, established by
construction for every book reachable through the public operations) -/

/-- Every order on an ask level has side SELL and price equal to the key. -/
def AskKeyed (hb : HalfBook) : Prop :=
  ∀ kl ∈ hb, ∀ o ∈ kl.2, o.side = Side.SELL ∧ o.price = kl.1

/-- Every order on a bid level has side BUY and price equal to minus the key. -/
def BidKeyed (hb : HalfBook) : Prop :=
  ∀ kl ∈ hb, ∀ o ∈ kl.2, o.side = Side.BUY ∧ o.price = -kl.1

/-- Keys strictly increase along a half book (the `SortedDict` order). -/
abbrev SortedKeys (hb : HalfBook) : Prop :=
  hb.Pairwise (fun x y => x.1 < y.1)

/-- A price level exists only while non-empty. -/
def LevelsNonempty (hb : HalfBook) : Prop :=
  ∀ kl ∈ hb, kl.2 ≠ []

/-- Every resting order has positive quantity. -/
def QtyPos (hb : HalfBook) : Prop :=
  ∀ kl ∈ hb, ∀ o ∈ kl.2, 0 < o.quantity

/-- The full well-formedness invariant of a book. -/
structure BookInv (b : OrderBook) : Prop where
  bidKeyed : BidKeyed b.bids
  askKeyed : AskKeyed b.asks
  bidSorted : SortedKeys b.bids
  askSorted : SortedKeys b.asks
  bidNe : LevelsNonempty b.bids
  askNe : LevelsNonempty b.asks
  bidQty : QtyPos b.bids
  askQty : QtyPos b.asks
  idsNodup : (bookIds b).Nodup

theorem bookInv_empty : BookInv emptyBook := by
  constructor <;> simp [emptyBook, BidKeyed, AskKeyed, SortedKeys, LevelsNonempty,
    QtyPos, bookIds, bookOrders, halfOrders]

/-! ### Lemmas about `insertLevel` -/

theorem halfOrders_cons (k : Int) (lvl : Level) (hb : HalfBook) :
    halfOrders ((k, lvl) :: hb) = lvl ++ halfOrders hb := by
  simp [halfOrders]

theorem insertLevel_perm (k : Int) (o : OrderRequest) (hb : HalfBook) :
    (halfOrders (insertLevel k o hb)).Perm (o :: halfOrders hb) := by
  induction hb with
  | nil => simp [insertLevel, halfOrders]
  | cons kl rest ih =>
    obtain ⟨k₀, lvl⟩ := kl
    by_cases h1 : k = k₀
    · simp only [insertLevel, h1, if_true, eq_self_iff_true, halfOrders_cons,
        List.append_assoc, List.singleton_append]
      exact List.perm_middle
    · by_cases h2 : k < k₀
      · simp [insertLevel, h1, h2, halfOrders_cons]
      · simp only [insertLevel, h1, if_false, h2, halfOrders_cons]
        exact (List.Perm.append_left lvl ih).trans List.perm_middle

/-- Every entry of `insertLevel k o hb` is an old entry, the fresh level
`(k, [o])`, or the level at key `k` with `o` appended. -/
theorem insertLevel_mem_cases {k : Int} {o : OrderRequest} {hb : HalfBook} :
    ∀ kl ∈ insertLevel k o hb,
      kl ∈ hb ∨ kl = (k, [o]) ∨ ∃ lvl, (k, lvl) ∈ hb ∧ kl = (k, lvl ++ [o]) := by
  induction hb with
  | nil =>
    intro kl hkl
    simp [insertLevel] at hkl
    right; left; simp [hkl]
  | cons kl₀ rest ih =>
    obtain ⟨k₀, lvl₀⟩ := kl₀
    intro kl hkl
    by_cases h1 : k = k₀
    · subst h1
      simp only [insertLevel, if_pos rfl] at hkl
      rcases List.mem_cons.mp hkl with hkl | hkl
      · right; right
        exact ⟨lvl₀, List.mem_cons_self _ _, hkl⟩
      · left; exact List.mem_cons_of_mem _ hkl
    · by_cases h2 : k < k₀
      · simp only [insertLevel, h1, if_false, h2, if_pos rfl] at hkl
        rcases List.mem_cons.mp hkl with hkl | hkl
        · right; left; exact hkl
        · left; exact hkl
      · simp only [insertLevel, h1, if_false, h2] at hkl
        rcases List.mem_cons.mp hkl with hkl | hkl
        · left; rw [hkl]; exact List.mem_cons_self _ _
        · rcases ih kl hkl with hc | hc | ⟨lvl, hlvl, hc⟩
          · left; exact List.mem_cons_of_mem _ hc
          · right; left; exact hc
          · right; right; exact ⟨lvl, List.mem_cons_of_mem _ hlvl, hc⟩

theorem insertLevel_sorted {k : Int} {o : OrderRequest} {hb : HalfBook}
    (h : SortedKeys hb) : SortedKeys (insertLevel k o hb) := by
  induction hb with
  | nil => simp [insertLevel, SortedKeys]
  | cons kl rest ih =>
    obtain ⟨k₀, lvl⟩ := kl
    rw [SortedKeys, List.pairwise_cons] at h
    obtain ⟨hk₀, hrest⟩ := h
    by_cases h1 : k = k₀
    · rw [insertLevel, if_pos h1]
      exact List.Pairwise.cons hk₀ hrest
    · by_cases h2 : k < k₀
      · rw [insertLevel, if_neg h1, if_pos h2]
        refine List.Pairwise.cons ?_ (List.Pairwise.cons hk₀ hrest)
        intro kl hkl
        rcases List.mem_cons.mp hkl with hkl | hkl
        · subst hkl; exact h2
        · exact lt_trans h2 (hk₀ kl hkl)
      · rw [insertLevel, if_neg h1, if_neg h2]
        have hk₀k : k₀ < k := lt_of_le_of_ne (not_lt.mp h2) (fun hc => h1 hc.symm)
        refine List.Pairwise.cons ?_ (ih hrest)
        intro kl hkl
        rcases insertLevel_mem_cases kl hkl with hc | hc | ⟨lvl₁, hlvl, hc⟩
        · exact hk₀ kl hc
        · rw [hc]; exact hk₀k
        · rw [hc]; exact hk₀k

theorem insertLevel_levelsNonempty {k : Int} {o : OrderRequest} {hb : HalfBook}
    (h : LevelsNonempty hb) : LevelsNonempty (insertLevel k o hb) := by
  intro kl hkl
  rcases insertLevel_mem_cases kl hkl with hc | hc | ⟨lvl, _, hc⟩
  · exact h kl hc
  · rw [hc]; simp
  · rw [hc]; simp

theorem insertLevel_qtyPos {k : Int} {o : OrderRequest} {hb : HalfBook}
    (h : QtyPos hb) (ho : 0 < o.quantity) : QtyPos (insertLevel k o hb) := by
  intro kl hkl x hx
  rcases insertLevel_mem_cases kl hkl with hc | hc | ⟨lvl, hlvl, hc⟩
  · exact h kl hc x hx
  · rw [hc] at hx
    simp at hx
    rw [hx]; exact ho
  · rw [hc] at hx
    simp at hx
    rcases hx with hx | hx
    · exact h (k, lvl) hlvl x hx
    · rw [hx]; exact ho

theorem insertLevel_askKeyed {k : Int} {o : OrderRequest} {hb : HalfBook}
    (h : AskKeyed hb) (hside : o.side = Side.SELL) (hprice : o.price = k) :
    AskKeyed (insertLevel k o hb) := by
  intro kl hkl x hx
  rcases insertLevel_mem_cases kl hkl with hc | hc | ⟨lvl, hlvl, hc⟩
  · exact h kl hc x hx
  · rw [hc] at hx ⊢
    simp at hx
    rw [hx]; exact ⟨hside, hprice⟩
  · rw [hc] at hx ⊢
    simp at hx
    rcases hx with hx | hx
    · exact h (k, lvl) hlvl x hx
    · rw [hx]; exact ⟨hside, hprice⟩

theorem insertLevel_bidKeyed {k : Int} {o : OrderRequest} {hb : HalfBook}
    (h : BidKeyed hb) (hside : o.side = Side.BUY) (hprice : o.price = -k) :
    BidKeyed (insertLevel k o hb) := by
  intro kl hkl x hx
  rcases insertLevel_mem_cases kl hkl with hc | hc | ⟨lvl, hlvl, hc⟩
  · exact h kl hc x hx
  · rw [hc] at hx ⊢
    simp at hx
    rw [hx]; exact ⟨hside, hprice⟩
  · rw [hc] at hx ⊢
    simp at hx
    rcases hx with hx | hx
    · exact h (k, lvl) hlvl x hx
    · rw [hx]; exact ⟨hside, hprice⟩

theorem halfQty_insertLevel (oid : Nat) (k : Int) (o : OrderRequest) (hb : HalfBook) :
    halfQty oid (insertLevel k o hb) =
      (if o.order_id = oid then o.quantity else 0) + halfQty oid hb := by
  induction hb with
  | nil => simp [insertLevel, halfQty, levelQty_cons, levelQty_nil]
  | cons kl rest ih =>
    obtain ⟨k₀, lvl⟩ := kl
    by_cases h1 : k = k₀
    · rw [insertLevel, if_pos h1, halfQty_cons, halfQty_cons, levelQty_append,
        levelQty_cons, levelQty_nil]
      omega
    · by_cases h2 : k < k₀
      · rw [insertLevel, if_neg h1, if_pos h2, halfQty_cons, halfQty_cons,
          levelQty_cons, levelQty_nil]
        omega
      · rw [insertLevel, if_neg h1, if_neg h2, halfQty_cons, ih, halfQty_cons]
        omega

/-! ### Lemmas about `addOrder` and `removeOrder` -/

theorem bookOrders_addOrder_perm (b : OrderBook) (o : OrderRequest) :
    (bookOrders (addOrder b o)).Perm (o :: bookOrders b) := by
  by_cases h : o.side = Side.BUY
  · simp only [addOrder, if_pos h, bookOrders]
    exact ((insertLevel_perm (-o.price) o b.bids).append_right _).trans
      (by simp)
  · simp only [addOrder, if_neg h, bookOrders]
    exact ((insertLevel_perm o.price o b.asks).append_left _).trans
      List.perm_middle

theorem bookIds_addOrder_perm (b : OrderBook) (o : OrderRequest) :
    (bookIds (addOrder b o)).Perm (o.order_id :: bookIds b) := by
  simpa [bookIds] using (bookOrders_addOrder_perm b o).map (fun x => x.order_id)

theorem restingQty_addOrder (x : Nat) (b : OrderBook) (o : OrderRequest) :
    restingQty x (addOrder b o) =
      (if o.order_id = x then o.quantity else 0) + restingQty x b := by
  by_cases h : o.side = Side.BUY
  · simp only [addOrder, if_pos h, restingQty, halfQty_insertLevel]
    omega
  · simp only [addOrder, if_neg h, restingQty, halfQty_insertLevel]
    omega

theorem insertLevel_nil (k : Int) (o : OrderRequest) : insertLevel k o [] = [(k, [o])] := rfl

theorem insertLevel_cons_lt {k k₀ : Int} (o : OrderRequest) (lvl : Level) (rest : HalfBook)
    (h : k < k₀) : insertLevel k o ((k₀, lvl) :: rest) = (k, [o]) :: (k₀, lvl) :: rest := by
  rw [insertLevel, if_neg (ne_of_lt h), if_pos h]

/-- The head key of an insertion is the inserted key or the old head key. -/
theorem insertLevel_head_cases (k : Int) (o : OrderRequest) (hb : HalfBook) :
    ∃ lvl rest, (insertLevel k o hb = (k, lvl) :: rest) ∨
      (∃ k₀ lvl₀ rest₀, hb = (k₀, lvl₀) :: rest₀ ∧ insertLevel k o hb = (k₀, lvl) :: rest) := by
  cases hb with
  | nil => exact ⟨[o], [], Or.inl rfl⟩
  | cons kl rest =>
    obtain ⟨k₀, lvl₀⟩ := kl
    by_cases h1 : k = k₀
    · rw [insertLevel, if_pos h1]
      exact ⟨lvl₀ ++ [o], rest, Or.inr ⟨k₀, lvl₀, rest, rfl, rfl⟩⟩
    · by_cases h2 : k < k₀
      · rw [insertLevel, if_neg h1, if_pos h2]
        exact ⟨[o], (k₀, lvl₀) :: rest, Or.inl rfl⟩
      · rw [insertLevel, if_neg h1, if_neg h2]
        exact ⟨lvl₀, insertLevel k o rest, Or.inr ⟨k₀, lvl₀, rest, rfl, rfl⟩⟩

theorem removeSide_head (oid : Nat) (k : Int) (lvl : Level) (rest : HalfBook) :
    removeSide oid k ((k, lvl) :: rest) =
      if lvl.any (fun o => o.order_id = oid) then
        (if (removeFromLevel oid lvl).isEmpty then rest
         else (k, removeFromLevel oid lvl) :: rest)
      else (k, lvl) :: rest := by
  rw [removeSide, if_pos rfl]

theorem removeSide_absent {oid : Nat} {k : Int} {hb : HalfBook}
    (h : ∀ kl ∈ hb, ∀ o ∈ kl.2, o.order_id ≠ oid) : removeSide oid k hb = hb := by
  induction hb with
  | nil => rfl
  | cons kl rest ih =>
    obtain ⟨k₀, lvl⟩ := kl
    have hlvl : ∀ o ∈ lvl, o.order_id ≠ oid :=
      fun o ho => h (k₀, lvl) (List.mem_cons_self _ _) o ho
    have hany : lvl.any (fun o => o.order_id = oid) = false := by
      simp only [List.any_eq_false, decide_eq_true_eq]
      exact hlvl
    by_cases hk : k₀ = k
    · rw [removeSide, if_pos hk, hany]
      simp
    · rw [removeSide, if_neg hk]
      exact congrArg _ (ih fun kl hkl o ho => h kl (List.mem_cons_of_mem _ hkl) o ho)

/-! ### Nodup helpers -/

theorem level_ids_nodup {b : OrderBook} {k : Int} {lvl : Level} {rest : HalfBook}
    (hnodup : (bookIds b).Nodup) (hasks : b.asks = (k, lvl) :: rest) :
    (lvl.map (fun o => o.order_id)).Nodup := by
  have hsub : (lvl.map (fun o => o.order_id)).Sublist (bookIds b) := by
    rw [bookIds, bookOrders, hasks, halfOrders_cons]
    rw [List.map_append, List.map_append]
    exact ((List.sublist_append_left _ _).trans (List.sublist_append_right _ _))
  exact hnodup.sublist hsub

theorem level_ids_nodup_bids {b : OrderBook} {k : Int} {lvl : Level} {rest : HalfBook}
    (hnodup : (bookIds b).Nodup) (hbids : b.bids = (k, lvl) :: rest) :
    (lvl.map (fun o => o.order_id)).Nodup := by
  have hsub : (lvl.map (fun o => o.order_id)).Sublist (bookIds b) := by
    rw [bookIds, bookOrders, hbids, halfOrders_cons]
    rw [List.map_append, List.map_append]
    exact ((List.sublist_append_left _ _).trans (List.sublist_append_left _ _))
  exact hnodup.sublist hsub

/-! ### One-iteration characterization of the matching loops -/

/-- What one iteration of `_match_buy_order` does to the book: the first
eligible maker at the best ask level is decremented in place; when its
quantity reaches zero, `remove_order` removes exactly that entry and deletes
the level if it became empty. -/
theorem buyStep_book_eq
    {b : OrderBook} {taker maker : OrderRequest} {k : Int} {lvl : Level} {rest : HalfBook}
    (tq : Nat)
    (hasks : b.asks = (k, lvl) :: rest)
    (hkey : AskKeyed b.asks)
    (hnodup : (bookIds b).Nodup)
    (hfe : findEligible taker.trader_id lvl = some maker) :
    ∃ pre post, lvl = pre ++ maker :: post ∧
      (∀ x ∈ pre, x.trader_id = taker.trader_id) ∧
      (if ({ maker with quantity := maker.quantity - tq } : OrderRequest).quantity = 0
        then removeOrder
          { b with asks := (k, updateEligibleLevel taker.trader_id tq lvl) :: rest }
          { maker with quantity := maker.quantity - tq }
        else { b with asks := (k, updateEligibleLevel taker.trader_id tq lvl) :: rest }) =
      { bids := b.bids,
        asks := if maker.quantity - tq = 0 then
            (if pre ++ post = [] then rest else (k, pre ++ post) :: rest)
          else (k, pre ++ ({ maker with quantity := maker.quantity - tq } :: post)) :: rest } := by
  obtain ⟨pre, post, hsplit, hpre, hupd⟩ := findEligible_split tq hfe
  refine ⟨pre, post, hsplit, hpre, ?_⟩
  have hmem : maker ∈ lvl := findEligible_mem hfe
  have hmk := hkey (k, lvl) (by rw [hasks]; exact List.mem_cons_self _ _) maker hmem
  have hside : maker.side = Side.SELL := hmk.1
  have hprice : maker.price = k := hmk.2
  by_cases hz : maker.quantity - tq = 0
  · rw [if_pos hz, if_pos hz]
    have hidpre : ∀ y ∈ pre, y.order_id ≠ maker.order_id := by
      have hlvlnodup := level_ids_nodup hnodup hasks
      rw [hsplit, List.map_append, List.map_cons] at hlvlnodup
      intro y hy hc
      have : maker.order_id ∈ pre.map (fun o => o.order_id) :=
        List.mem_map.mpr ⟨y, hy, hc⟩
      exact (List.disjoint_of_nodup_append hlvlnodup) this (List.mem_cons_self _ _)
    have hrem : removeFromLevel maker.order_id
        (pre ++ ({ maker with quantity := maker.quantity - tq } :: post)) = pre ++ post :=
      removeFromLevel_of_front rfl hidpre
    have hany : (pre ++ ({ maker with quantity := maker.quantity - tq } :: post)).any
        (fun o => o.order_id = maker.order_id) = true := by
      simp only [List.any_eq_true, decide_eq_true_eq]
      exact ⟨{ maker with quantity := maker.quantity - tq },
        List.mem_append_right _ (List.mem_cons_self _ _), rfl⟩
    have hsell : ¬(({ maker with quantity := maker.quantity - tq } : OrderRequest).side = Side.BUY) := by
      simp [hside]
    subst hprice
    rw [removeOrder, if_neg hsell]
    simp only [hupd]
    rw [removeSide_head, hany, if_pos rfl, hrem]
    cases hpp : pre ++ post with
    | nil => simp [hpp]
    | cons z zs => simp [hpp]
  · rw [if_neg hz, if_neg hz, hupd]

/-- Mirror of `buyStep_book_eq` for `_match_sell_order` on the bids side
(keys are negated prices). -/
theorem sellStep_book_eq
    {b : OrderBook} {taker maker : OrderRequest} {k : Int} {lvl : Level} {rest : HalfBook}
    (tq : Nat)
    (hbids : b.bids = (k, lvl) :: rest)
    (hkey : BidKeyed b.bids)
    (hnodup : (bookIds b).Nodup)
    (hfe : findEligible taker.trader_id lvl = some maker) :
    ∃ pre post, lvl = pre ++ maker :: post ∧
      (∀ x ∈ pre, x.trader_id = taker.trader_id) ∧
      (if ({ maker with quantity := maker.quantity - tq } : OrderRequest).quantity = 0
        then removeOrder
          { b with bids := (k, updateEligibleLevel taker.trader_id tq lvl) :: rest }
          { maker with quantity := maker.quantity - tq }
        else { b with bids := (k, updateEligibleLevel taker.trader_id tq lvl) :: rest }) =
      { bids := if maker.quantity - tq = 0 then
            (if pre ++ post = [] then rest else (k, pre ++ post) :: rest)
          else (k, pre ++ ({ maker with quantity := maker.quantity - tq } :: post)) :: rest,
        asks := b.asks } := by
  obtain ⟨pre, post, hsplit, hpre, hupd⟩ := findEligible_split tq hfe
  refine ⟨pre, post, hsplit, hpre, ?_⟩
  have hmem : maker ∈ lvl := findEligible_mem hfe
  have hmk := hkey (k, lvl) (by rw [hbids]; exact List.mem_cons_self _ _) maker hmem
  have hside : maker.side = Side.BUY := hmk.1
  have hprice : maker.price = -k := hmk.2
  by_cases hz : maker.quantity - tq = 0
  · rw [if_pos hz, if_pos hz]
    have hidpre : ∀ y ∈ pre, y.order_id ≠ maker.order_id := by
      have hlvlnodup := level_ids_nodup_bids hnodup hbids
      rw [hsplit, List.map_append, List.map_cons] at hlvlnodup
      intro y hy hc
      have : maker.order_id ∈ pre.map (fun o => o.order_id) :=
        List.mem_map.mpr ⟨y, hy, hc⟩
      exact (List.disjoint_of_nodup_append hlvlnodup) this (List.mem_cons_self _ _)
    have hrem : removeFromLevel maker.order_id
        (pre ++ ({ maker with quantity := maker.quantity - tq } :: post)) = pre ++ post :=
      removeFromLevel_of_front rfl hidpre
    have hany : (pre ++ ({ maker with quantity := maker.quantity - tq } :: post)).any
        (fun o => o.order_id = maker.order_id) = true := by
      simp only [List.any_eq_true, decide_eq_true_eq]
      exact ⟨{ maker with quantity := maker.quantity - tq },
        List.mem_append_right _ (List.mem_cons_self _ _), rfl⟩
    have hbuy : (({ maker with quantity := maker.quantity - tq } : OrderRequest).side = Side.BUY) := hside
    have hkneg : k = -maker.price := by rw [hprice]; ring
    subst hkneg
    rw [removeOrder, if_pos hbuy]
    simp only [hupd]
    rw [removeSide_head, hany, if_pos rfl, hrem]
    cases hpp : pre ++ post with
    | nil => simp [hpp]
    | cons z zs => simp [hpp]
  · rw [if_neg hz, if_neg hz, hupd]

/-! ### Named components of one loop iteration (abbreviations for the
subterms of `matchBuyLoop` / `matchSellLoop`) -/

/-- Value `trade_quantity = min(taker_order.quantity, maker_order.quantity)`. -/
def tradeQty (taker maker : OrderRequest) : Nat :=
  min taker.quantity maker.quantity

/-- The `Trade(...)` record built in the loop body. -/
def stepTrade (taker maker : OrderRequest) : Trade :=
  { maker_order_id := maker.order_id
    maker_trader_id := maker.trader_id
    taker_order_id := taker.order_id
    taker_trader_id := taker.trader_id
    price := maker.price
    quantity := tradeQty taker maker
    taker_side := taker.side }

/-- The taker after `taker_order.quantity -= trade_quantity`. -/
def stepTaker (taker maker : OrderRequest) : OrderRequest :=
  { taker with quantity := taker.quantity - tradeQty taker maker }

/-- The maker after `maker_order.quantity -= trade_quantity`. -/
def stepMaker (taker maker : OrderRequest) : OrderRequest :=
  { maker with quantity := maker.quantity - tradeQty taker maker }

/-- The book after one `_match_buy_order` iteration. -/
def buyStepBook (b : OrderBook) (taker maker : OrderRequest) (k : Int)
    (lvl : Level) (rest : HalfBook) : OrderBook :=
  if ({ maker with quantity := maker.quantity - tradeQty taker maker } : OrderRequest).quantity = 0
  then removeOrder
    { b with asks := (k, updateEligibleLevel taker.trader_id (tradeQty taker maker) lvl) :: rest }
    { maker with quantity := maker.quantity - tradeQty taker maker }
  else
    { b with asks := (k, updateEligibleLevel taker.trader_id (tradeQty taker maker) lvl) :: rest }

/-- The book after one `_match_sell_order` iteration. -/
def sellStepBook (b : OrderBook) (taker maker : OrderRequest) (k : Int)
    (lvl : Level) (rest : HalfBook) : OrderBook :=
  if ({ maker with quantity := maker.quantity - tradeQty taker maker } : OrderRequest).quantity = 0
  then removeOrder
    { b with bids := (k, updateEligibleLevel taker.trader_id (tradeQty taker maker) lvl) :: rest }
    { maker with quantity := maker.quantity - tradeQty taker maker }
  else
    { b with bids := (k, updateEligibleLevel taker.trader_id (tradeQty taker maker) lvl) :: rest }

theorem matchBuyLoop_succ_some (fuel : Nat) {b : OrderBook} {taker maker : OrderRequest}
    {k : Int} {lvl : Level} {rest : HalfBook}
    (hasks : b.asks = (k, lvl) :: rest) (hq : 0 < taker.quantity)
    (hk : k ≤ taker.price) (hfe : findEligible taker.trader_id lvl = some maker) :
    matchBuyLoop (fuel + 1) b taker =
      ((matchBuyLoop fuel (buyStepBook b taker maker k lvl rest) (stepTaker taker maker)).1,
       (matchBuyLoop fuel (buyStepBook b taker maker k lvl rest) (stepTaker taker maker)).2.1,
       stepTrade taker maker ::
         (matchBuyLoop fuel (buyStepBook b taker maker k lvl rest) (stepTaker taker maker)).2.2) := by
  simp only [matchBuyLoop, hasks]
  rw [if_pos (show taker.quantity > 0 ∧ k ≤ taker.price from ⟨hq, hk⟩)]
  simp only [hfe, buyStepBook, stepTaker, stepTrade, tradeQty]

theorem matchSellLoop_succ_some (fuel : Nat) {b : OrderBook} {taker maker : OrderRequest}
    {k : Int} {lvl : Level} {rest : HalfBook}
    (hbids : b.bids = (k, lvl) :: rest) (hq : 0 < taker.quantity)
    (hk : taker.price ≤ -k) (hfe : findEligible taker.trader_id lvl = some maker) :
    matchSellLoop (fuel + 1) b taker =
      ((matchSellLoop fuel (sellStepBook b taker maker k lvl rest) (stepTaker taker maker)).1,
       (matchSellLoop fuel (sellStepBook b taker maker k lvl rest) (stepTaker taker maker)).2.1,
       stepTrade taker maker ::
         (matchSellLoop fuel (sellStepBook b taker maker k lvl rest) (stepTaker taker maker)).2.2) := by
  simp only [matchSellLoop, hbids]
  rw [if_pos (show taker.quantity > 0 ∧ taker.price ≤ -k from ⟨hq, hk⟩)]
  simp only [hfe, sellStepBook, stepTaker, stepTrade, tradeQty]

/-! ### Trade-list accounting lemmas -/

/-- Total quantity across a trade list. -/
def qtySum (ts : List Trade) : Nat :=
  (ts.map (fun t => t.quantity)).sum

theorem qtySum_nil : qtySum [] = 0 := rfl

theorem qtySum_cons (t : Trade) (ts : List Trade) :
    qtySum (t :: ts) = t.quantity + qtySum ts := by
  simp [qtySum]

theorem makerFilledQty_nil (x : Nat) : makerFilledQty x [] = 0 := rfl

theorem makerFilledQty_cons (x : Nat) (t : Trade) (ts : List Trade) :
    makerFilledQty x (t :: ts) =
      (if t.maker_order_id = x then t.quantity else 0) + makerFilledQty x ts := by
  by_cases h : t.maker_order_id = x <;> simp [makerFilledQty, h]

theorem filledQty_nil (x : Nat) : filledQty x [] = 0 := rfl

theorem filledQty_cons (x : Nat) (t : Trade) (ts : List Trade) :
    filledQty x (t :: ts) =
      (if tradeInvolves x t then t.quantity else 0) + filledQty x ts := by
  by_cases h : tradeInvolves x t <;> simp [filledQty, h]

theorem filledQty_append (x : Nat) (a c : List Trade) :
    filledQty x (a ++ c) = filledQty x a + filledQty x c := by
  simp [filledQty, List.filter_append]

theorem filledQty_eq_makerFilledQty {x : Nat} {ts : List Trade}
    (h : ∀ t ∈ ts, t.taker_order_id ≠ x) : filledQty x ts = makerFilledQty x ts := by
  induction ts with
  | nil => rfl
  | cons t ts ih =>
    rw [filledQty_cons, makerFilledQty_cons]
    have ht : t.taker_order_id ≠ x := h t (List.mem_cons_self _ _)
    have : tradeInvolves x t = (t.maker_order_id = x : Bool) := by
      simp [tradeInvolves, ht]
    rw [this]
    have hrest := ih fun u hu => h u (List.mem_cons_of_mem _ hu)
    by_cases hm : t.maker_order_id = x <;> simp [hm, hrest]

theorem filledQty_eq_qtySum {x : Nat} {ts : List Trade}
    (h : ∀ t ∈ ts, t.taker_order_id = x) : filledQty x ts = qtySum ts := by
  induction ts with
  | nil => rfl
  | cons t ts ih =>
    rw [filledQty_cons, qtySum_cons]
    have ht : t.taker_order_id = x := h t (List.mem_cons_self _ _)
    have : tradeInvolves x t = true := by simp [tradeInvolves, ht]
    rw [this, if_pos rfl, ih fun u hu => h u (List.mem_cons_of_mem _ hu)]

theorem filledQty_eq_zero {x : Nat} {ts : List Trade}
    (h : ∀ t ∈ ts, t.taker_order_id ≠ x ∧ t.maker_order_id ≠ x) :
    filledQty x ts = 0 := by
  induction ts with
  | nil => rfl
  | cons t ts ih =>
    rw [filledQty_cons]
    have ht := h t (List.mem_cons_self _ _)
    have : tradeInvolves x t = false := by simp [tradeInvolves, ht.1, ht.2]
    rw [this]
    simpa using ih fun u hu => h u (List.mem_cons_of_mem _ hu)

/-! ### Membership helpers -/

theorem mem_bookIds_of_ask {b : OrderBook} {k : Int} {lvl : Level} {rest : HalfBook}
    {o : OrderRequest} (hasks : b.asks = (k, lvl) :: rest) (ho : o ∈ lvl) :
    o.order_id ∈ bookIds b := by
  refine List.mem_map.mpr ⟨o, ?_, rfl⟩
  rw [bookOrders, hasks, halfOrders_cons]
  exact List.mem_append_right _ (List.mem_append_left _ ho)

theorem mem_bookIds_of_bid {b : OrderBook} {k : Int} {lvl : Level} {rest : HalfBook}
    {o : OrderRequest} (hbids : b.bids = (k, lvl) :: rest) (ho : o ∈ lvl) :
    o.order_id ∈ bookIds b := by
  refine List.mem_map.mpr ⟨o, ?_, rfl⟩
  rw [bookOrders, hbids, halfOrders_cons]
  exact List.mem_append_left _ (List.mem_append_left _ ho)

/-! ### Bundled properties of one buy-loop iteration -/

theorem buyStep_props {b : OrderBook} {taker maker : OrderRequest} {k : Int}
    {lvl : Level} {rest : HalfBook}
    (hasks : b.asks = (k, lvl) :: rest)
    (hkey : AskKeyed b.asks)
    (hnodup : (bookIds b).Nodup)
    (hfe : findEligible taker.trader_id lvl = some maker) :
    (buyStepBook b taker maker k lvl rest).bids = b.bids ∧
    AskKeyed (buyStepBook b taker maker k lvl rest).asks ∧
    (bookIds (buyStepBook b taker maker k lvl rest)).Sublist (bookIds b) ∧
    ∀ x, restingQty x b = restingQty x (buyStepBook b taker maker k lvl rest) +
      (if maker.order_id = x then tradeQty taker maker else 0) := by
  obtain ⟨pre, post, hsplit, hpre, heq⟩ :=
    buyStep_book_eq (tradeQty taker maker) hasks hkey hnodup hfe
  have hstep : buyStepBook b taker maker k lvl rest =
      { bids := b.bids,
        asks := if maker.quantity - tradeQty taker maker = 0 then
            (if pre ++ post = [] then rest else (k, pre ++ post) :: rest)
          else (k, pre ++ ({ maker with quantity := maker.quantity - tradeQty taker maker } :: post)) :: rest } := by
    rw [buyStepBook]; exact heq
  have hkeyL : ∀ o ∈ lvl, o.side = Side.SELL ∧ o.price = k := by
    intro o ho
    exact hkey (k, lvl) (by rw [hasks]; exact List.mem_cons_self _ _) o ho
  have hkeyR : ∀ kl ∈ rest, ∀ o ∈ kl.2, o.side = Side.SELL ∧ o.price = kl.1 := by
    intro kl hkl o ho
    exact hkey kl (by rw [hasks]; exact List.mem_cons_of_mem _ hkl) o ho
  have hmaker := hkeyL maker (by rw [hsplit]; exact List.mem_append_right _ (List.mem_cons_self _ _))
  refine ⟨by rw [hstep], ?_, ?_, ?_⟩
  · -- the asks side stays well-keyed
    rw [hstep]
    by_cases hz : maker.quantity - tradeQty taker maker = 0
    · rw [if_pos hz]
      by_cases hpp : pre ++ post = []
      · rw [if_pos hpp]
        exact hkeyR
      · rw [if_neg hpp]
        intro kl hkl o ho
        rcases List.mem_cons.mp hkl with hkl | hkl
        · subst hkl
          have : o ∈ lvl := by
            rw [hsplit]
            rcases List.mem_append.mp ho with h | h
            · exact List.mem_append_left _ h
            · exact List.mem_append_right _ (List.mem_cons_of_mem _ h)
          exact hkeyL o this
        · exact hkeyR kl hkl o ho
    · rw [if_neg hz]
      intro kl hkl o ho
      rcases List.mem_cons.mp hkl with hkl | hkl
      · subst hkl
        rcases List.mem_append.mp ho with h | h
        · exact hkeyL o (by rw [hsplit]; exact List.mem_append_left _ h)
        · rcases List.mem_cons.mp h with h | h
          · subst h
            exact ⟨hmaker.1, hmaker.2⟩
          · exact hkeyL o (by rw [hsplit]; exact List.mem_append_right _ (List.mem_cons_of_mem _ h))
      · exact hkeyR kl hkl o ho
  · -- the resting ids only shrink
    have hsub : ∀ hb₁ : HalfBook,
        ((halfOrders hb₁).map (fun o => o.order_id)).Sublist
          ((halfOrders b.asks).map (fun o => o.order_id)) →
        (bookIds { bids := b.bids, asks := hb₁ }).Sublist (bookIds b) := by
      intro hb₁ h
      rw [bookIds, bookIds, bookOrders, bookOrders, List.map_append, List.map_append]
      exact List.Sublist.append_left h _
    rw [hstep]
    by_cases hz : maker.quantity - tradeQty taker maker = 0
    · rw [if_pos hz]
      by_cases hpp : pre ++ post = []
      · rw [if_pos hpp]
        refine hsub rest ?_
        rw [hasks, halfOrders_cons, List.map_append]
        exact List.sublist_append_right _ _
      · rw [if_neg hpp]
        refine hsub _ ?_
        rw [hasks, halfOrders_cons, halfOrders_cons, hsplit]
        simp only [List.map_append, List.map_cons, List.append_assoc, List.cons_append]
        refine List.Sublist.append_left ?_ _
        refine List.Sublist.trans ?_ (List.sublist_cons_self _ _)
        exact List.Sublist.refl _
    · rw [if_neg hz]
      refine hsub _ ?_
      rw [hasks, halfOrders_cons, halfOrders_cons, hsplit]
      simp only [List.map_append, List.map_cons, List.append_assoc, List.cons_append]
      exact List.Sublist.refl _
  · -- exact quantity bookkeeping for every order id
    intro x
    rw [hstep]
    have htq_taker : tradeQty taker maker ≤ taker.quantity := min_le_left _ _
    have htq_maker : tradeQty taker maker ≤ maker.quantity := min_le_right _ _
    have hlvl : levelQty x lvl = levelQty x pre +
        ((if maker.order_id = x then maker.quantity else 0) + levelQty x post) := by
      rw [hsplit, levelQty_append, levelQty_cons]
    by_cases hz : maker.quantity - tradeQty taker maker = 0
    · rw [if_pos hz]
      have hq : maker.quantity = tradeQty taker maker := by omega
      by_cases hpp : pre ++ post = []
      · rw [if_pos hpp]
        have hpre0 : pre = [] := by
          cases pre with
          | nil => rfl
          | cons a as => simp at hpp
        have hpost0 : post = [] := by
          rw [hpre0] at hpp
          simpa using hpp
        simp only [restingQty, hasks, halfQty_cons, hlvl, hpre0, hpost0, levelQty_nil]
        by_cases hx : maker.order_id = x <;> simp [hx] <;> omega
      · rw [if_neg hpp]
        simp only [restingQty, hasks, halfQty_cons, hlvl, levelQty_append]
        by_cases hx : maker.order_id = x <;> simp [hx] <;> omega
    · rw [if_neg hz]
      simp only [restingQty, hasks, halfQty_cons, hlvl, levelQty_append, levelQty_cons]
      by_cases hx : maker.order_id = x <;> simp [hx] <;> omega

/-! ### Bundled properties of one sell-loop iteration (mirror on the bids) -/

theorem sellStep_props {b : OrderBook} {taker maker : OrderRequest} {k : Int}
    {lvl : Level} {rest : HalfBook}
    (hbids : b.bids = (k, lvl) :: rest)
    (hkey : BidKeyed b.bids)
    (hnodup : (bookIds b).Nodup)
    (hfe : findEligible taker.trader_id lvl = some maker) :
    (sellStepBook b taker maker k lvl rest).asks = b.asks ∧
    BidKeyed (sellStepBook b taker maker k lvl rest).bids ∧
    (bookIds (sellStepBook b taker maker k lvl rest)).Sublist (bookIds b) ∧
    ∀ x, restingQty x b = restingQty x (sellStepBook b taker maker k lvl rest) +
      (if maker.order_id = x then tradeQty taker maker else 0) := by
  obtain ⟨pre, post, hsplit, hpre, heq⟩ :=
    sellStep_book_eq (tradeQty taker maker) hbids hkey hnodup hfe
  have hstep : sellStepBook b taker maker k lvl rest =
      { bids := if maker.quantity - tradeQty taker maker = 0 then
            (if pre ++ post = [] then rest else (k, pre ++ post) :: rest)
          else (k, pre ++ ({ maker with quantity := maker.quantity - tradeQty taker maker } :: post)) :: rest,
        asks := b.asks } := by
    rw [sellStepBook]; exact heq
  have hkeyL : ∀ o ∈ lvl, o.side = Side.BUY ∧ o.price = -k := by
    intro o ho
    exact hkey (k, lvl) (by rw [hbids]; exact List.mem_cons_self _ _) o ho
  have hkeyR : ∀ kl ∈ rest, ∀ o ∈ kl.2, o.side = Side.BUY ∧ o.price = -kl.1 := by
    intro kl hkl o ho
    exact hkey kl (by rw [hbids]; exact List.mem_cons_of_mem _ hkl) o ho
  have hmaker := hkeyL maker (by rw [hsplit]; exact List.mem_append_right _ (List.mem_cons_self _ _))
  refine ⟨by rw [hstep], ?_, ?_, ?_⟩
  · -- the bids side stays well-keyed
    rw [hstep]
    by_cases hz : maker.quantity - tradeQty taker maker = 0
    · rw [if_pos hz]
      by_cases hpp : pre ++ post = []
      · rw [if_pos hpp]
        exact hkeyR
      · rw [if_neg hpp]
        intro kl hkl o ho
        rcases List.mem_cons.mp hkl with hkl | hkl
        · subst hkl
          have : o ∈ lvl := by
            rw [hsplit]
            rcases List.mem_append.mp ho with h | h
            · exact List.mem_append_left _ h
            · exact List.mem_append_right _ (List.mem_cons_of_mem _ h)
          exact hkeyL o this
        · exact hkeyR kl hkl o ho
    · rw [if_neg hz]
      intro kl hkl o ho
      rcases List.mem_cons.mp hkl with hkl | hkl
      · subst hkl
        rcases List.mem_append.mp ho with h | h
        · exact hkeyL o (by rw [hsplit]; exact List.mem_append_left _ h)
        · rcases List.mem_cons.mp h with h | h
          · subst h
            exact ⟨hmaker.1, hmaker.2⟩
          · exact hkeyL o (by rw [hsplit]; exact List.mem_append_right _ (List.mem_cons_of_mem _ h))
      · exact hkeyR kl hkl o ho
  · -- the resting ids only shrink
    have hsub : ∀ hb₁ : HalfBook,
        ((halfOrders hb₁).map (fun o => o.order_id)).Sublist
          ((halfOrders b.bids).map (fun o => o.order_id)) →
        (bookIds { bids := hb₁, asks := b.asks }).Sublist (bookIds b) := by
      intro hb₁ h
      rw [bookIds, bookIds, bookOrders, bookOrders, List.map_append, List.map_append]
      exact List.Sublist.append h (List.Sublist.refl _)
    rw [hstep]
    by_cases hz : maker.quantity - tradeQty taker maker = 0
    · rw [if_pos hz]
      by_cases hpp : pre ++ post = []
      · rw [if_pos hpp]
        refine hsub rest ?_
        rw [hbids, halfOrders_cons, List.map_append]
        exact List.sublist_append_right _ _
      · rw [if_neg hpp]
        refine hsub _ ?_
        rw [hbids, halfOrders_cons, halfOrders_cons, hsplit]
        simp only [List.map_append, List.map_cons, List.append_assoc, List.cons_append]
        refine List.Sublist.append_left ?_ _
        refine List.Sublist.trans ?_ (List.sublist_cons_self _ _)
        exact List.Sublist.refl _
    · rw [if_neg hz]
      refine hsub _ ?_
      rw [hbids, halfOrders_cons, halfOrders_cons, hsplit]
      simp only [List.map_append, List.map_cons, List.append_assoc, List.cons_append]
      exact List.Sublist.refl _
  · -- exact quantity bookkeeping for every order id
    intro x
    rw [hstep]
    have htq_taker : tradeQty taker maker ≤ taker.quantity := min_le_left _ _
    have htq_maker : tradeQty taker maker ≤ maker.quantity := min_le_right _ _
    have hlvl : levelQty x lvl = levelQty x pre +
        ((if maker.order_id = x then maker.quantity else 0) + levelQty x post) := by
      rw [hsplit, levelQty_append, levelQty_cons]
    by_cases hz : maker.quantity - tradeQty taker maker = 0
    · rw [if_pos hz]
      have hq : maker.quantity = tradeQty taker maker := by omega
      by_cases hpp : pre ++ post = []
      · rw [if_pos hpp]
        have hpre0 : pre = [] := by
          cases pre with
          | nil => rfl
          | cons a as => simp at hpp
        have hpost0 : post = [] := by
          rw [hpre0] at hpp
          simpa using hpp
        simp only [restingQty, hbids, halfQty_cons, hlvl, hpre0, hpost0, levelQty_nil]
        by_cases hx : maker.order_id = x <;> simp [hx] <;> omega
      · rw [if_neg hpp]
        simp only [restingQty, hbids, halfQty_cons, hlvl, levelQty_append]
        by_cases hx : maker.order_id = x <;> simp [hx] <;> omega
    · rw [if_neg hz]
      simp only [restingQty, hbids, halfQty_cons, hlvl, levelQty_append, levelQty_cons]
      by_cases hx : maker.order_id = x <;> simp [hx] <;> omega

/-! ### Master lemma for the buy loop: taker-frame, quantity accounting,
trade provenance, bids-frame, id shrinkage and key preservation -/

theorem matchBuyLoop_master (fuel : Nat) :
    ∀ (b : OrderBook) (taker : OrderRequest) (b₁ : OrderBook) (t₁ : OrderRequest)
      (ts : List Trade),
      AskKeyed b.asks → (bookIds b).Nodup →
      matchBuyLoop fuel b taker = (b₁, t₁, ts) →
      t₁ = { taker with quantity := t₁.quantity } ∧
      taker.quantity = t₁.quantity + qtySum ts ∧
      (∀ t ∈ ts, t.taker_order_id = taker.order_id ∧
        t.taker_trader_id = taker.trader_id ∧ t.taker_side = taker.side ∧
        t.maker_trader_id ≠ taker.trader_id ∧ t.maker_order_id ∈ bookIds b) ∧
      (∀ x, restingQty x b = restingQty x b₁ + makerFilledQty x ts) ∧
      b₁.bids = b.bids ∧
      (bookIds b₁).Sublist (bookIds b) ∧
      AskKeyed b₁.asks := by
  induction fuel with
  | zero =>
    intro b taker b₁ t₁ ts hkey hnodup hres
    rw [matchBuyLoop] at hres
    obtain ⟨rfl, rfl, rfl⟩ : b = b₁ ∧ taker = t₁ ∧ [] = ts := by
      simpa using hres
    refine ⟨rfl, by simp [qtySum_nil], by simp, ?_, rfl, List.Sublist.refl _, hkey⟩
    intro x
    simp [makerFilledQty_nil]
  | succ fuel ih =>
    intro b taker b₁ t₁ ts hkey hnodup hres
    cases hasks : b.asks with
    | nil =>
      simp only [matchBuyLoop, hasks] at hres
      obtain ⟨rfl, rfl, rfl⟩ : b = b₁ ∧ taker = t₁ ∧ [] = ts := by
        simpa using hres
      refine ⟨rfl, by simp [qtySum_nil], by simp, ?_, rfl, List.Sublist.refl _, hkey⟩
      intro x
      simp [makerFilledQty_nil]
    | cons kl rest =>
      obtain ⟨k, lvl⟩ := kl
      by_cases hguard : taker.quantity > 0 ∧ k ≤ taker.price
      · cases hfe : findEligible taker.trader_id lvl with
        | none =>
          simp only [matchBuyLoop, hasks, hfe] at hres
          rw [if_pos hguard] at hres
          obtain ⟨rfl, rfl, rfl⟩ : b = b₁ ∧ taker = t₁ ∧ [] = ts := by
            simpa using hres
          refine ⟨rfl, by simp [qtySum_nil], by simp, ?_, rfl, List.Sublist.refl _, hkey⟩
          intro x
          simp [makerFilledQty_nil]
        | some maker =>
          rw [matchBuyLoop_succ_some fuel hasks hguard.1 hguard.2 hfe] at hres
          obtain ⟨⟨bF, tF, tsF⟩, hrec⟩ :
              ∃ r : OrderBook × OrderRequest × List Trade,
                matchBuyLoop fuel (buyStepBook b taker maker k lvl rest)
                  (stepTaker taker maker) = r := ⟨_, rfl⟩
          rw [hrec] at hres
          obtain ⟨rfl, rfl, rfl⟩ : bF = b₁ ∧ tF = t₁ ∧ stepTrade taker maker :: tsF = ts := by
            simpa using hres
          obtain ⟨hpbids, hpkey, hpsub, hpq⟩ := buyStep_props hasks hkey hnodup hfe
          have hB2nodup : (bookIds (buyStepBook b taker maker k lvl rest)).Nodup :=
            hnodup.sublist hpsub
          obtain ⟨ih1, ih2, ih3, ih4, ih5, ih6, ih7⟩ :=
            ih (buyStepBook b taker maker k lvl rest) (stepTaker taker maker)
              bF tF tsF hpkey hB2nodup hrec
          have htq : tradeQty taker maker ≤ taker.quantity := min_le_left _ _
          refine ⟨?_, ?_, ?_, ?_, ?_, ?_, ih7⟩
          · simpa [stepTaker] using ih1
          · have h2 : taker.quantity - tradeQty taker maker = tF.quantity + qtySum tsF := by
              simpa [stepTaker] using ih2
            rw [qtySum_cons]
            have : (stepTrade taker maker).quantity = tradeQty taker maker := rfl
            rw [this]
            omega
          · intro t ht
            rcases List.mem_cons.mp ht with ht | ht
            · subst ht
              refine ⟨rfl, rfl, rfl, findEligible_trader hfe, ?_⟩
              exact mem_bookIds_of_ask hasks (findEligible_mem hfe)
            · obtain ⟨h1, h2, h3, h4, h5⟩ := ih3 t ht
              refine ⟨by simpa [stepTaker] using h1, by simpa [stepTaker] using h2,
                by simpa [stepTaker] using h3, by simpa [stepTaker] using h4, ?_⟩
              exact hpsub.subset h5
          · intro x
            have h1 := hpq x
            have h2 := ih4 x
            rw [makerFilledQty_cons]
            simp only [stepTrade]
            by_cases hx : maker.order_id = x
            · rw [if_pos hx] at h1 ⊢
              omega
            · rw [if_neg hx] at h1 ⊢
              omega
          · rw [ih5, hpbids]
          · exact ih6.trans hpsub
      · simp only [matchBuyLoop, hasks] at hres
        rw [if_neg hguard] at hres
        obtain ⟨rfl, rfl, rfl⟩ : b = b₁ ∧ taker = t₁ ∧ [] = ts := by
          simpa using hres
        refine ⟨rfl, by simp [qtySum_nil], by simp, ?_, rfl, List.Sublist.refl _, hkey⟩
        intro x
        simp [makerFilledQty_nil]

/-- Mirror of `matchBuyLoop_master` for the sell loop. -/
theorem matchSellLoop_master (fuel : Nat) :
    ∀ (b : OrderBook) (taker : OrderRequest) (b₁ : OrderBook) (t₁ : OrderRequest)
      (ts : List Trade),
      BidKeyed b.bids → (bookIds b).Nodup →
      matchSellLoop fuel b taker = (b₁, t₁, ts) →
      t₁ = { taker with quantity := t₁.quantity } ∧
      taker.quantity = t₁.quantity + qtySum ts ∧
      (∀ t ∈ ts, t.taker_order_id = taker.order_id ∧
        t.taker_trader_id = taker.trader_id ∧ t.taker_side = taker.side ∧
        t.maker_trader_id ≠ taker.trader_id ∧ t.maker_order_id ∈ bookIds b) ∧
      (∀ x, restingQty x b = restingQty x b₁ + makerFilledQty x ts) ∧
      b₁.asks = b.asks ∧
      (bookIds b₁).Sublist (bookIds b) ∧
      BidKeyed b₁.bids := by
  induction fuel with
  | zero =>
    intro b taker b₁ t₁ ts hkey hnodup hres
    rw [matchSellLoop] at hres
    obtain ⟨rfl, rfl, rfl⟩ : b = b₁ ∧ taker = t₁ ∧ [] = ts := by
      simpa using hres
    refine ⟨rfl, by simp [qtySum_nil], by simp, ?_, rfl, List.Sublist.refl _, hkey⟩
    intro x
    simp [makerFilledQty_nil]
  | succ fuel ih =>
    intro b taker b₁ t₁ ts hkey hnodup hres
    cases hbids : b.bids with
    | nil =>
      simp only [matchSellLoop, hbids] at hres
      obtain ⟨rfl, rfl, rfl⟩ : b = b₁ ∧ taker = t₁ ∧ [] = ts := by
        simpa using hres
      refine ⟨rfl, by simp [qtySum_nil], by simp, ?_, rfl, List.Sublist.refl _, hkey⟩
      intro x
      simp [makerFilledQty_nil]
    | cons kl rest =>
      obtain ⟨k, lvl⟩ := kl
      by_cases hguard : taker.quantity > 0 ∧ taker.price ≤ -k
      · cases hfe : findEligible taker.trader_id lvl with
        | none =>
          simp only [matchSellLoop, hbids, hfe] at hres
          rw [if_pos hguard] at hres
          obtain ⟨rfl, rfl, rfl⟩ : b = b₁ ∧ taker = t₁ ∧ [] = ts := by
            simpa using hres
          refine ⟨rfl, by simp [qtySum_nil], by simp, ?_, rfl, List.Sublist.refl _, hkey⟩
          intro x
          simp [makerFilledQty_nil]
        | some maker =>
          rw [matchSellLoop_succ_some fuel hbids hguard.1 hguard.2 hfe] at hres
          obtain ⟨⟨bF, tF, tsF⟩, hrec⟩ :
              ∃ r : OrderBook × OrderRequest × List Trade,
                matchSellLoop fuel (sellStepBook b taker maker k lvl rest)
                  (stepTaker taker maker) = r := ⟨_, rfl⟩
          rw [hrec] at hres
          obtain ⟨rfl, rfl, rfl⟩ : bF = b₁ ∧ tF = t₁ ∧ stepTrade taker maker :: tsF = ts := by
            simpa using hres
          obtain ⟨hpasks, hpkey, hpsub, hpq⟩ := sellStep_props hbids hkey hnodup hfe
          have hB2nodup : (bookIds (sellStepBook b taker maker k lvl rest)).Nodup :=
            hnodup.sublist hpsub
          obtain ⟨ih1, ih2, ih3, ih4, ih5, ih6, ih7⟩ :=
            ih (sellStepBook b taker maker k lvl rest) (stepTaker taker maker)
              bF tF tsF hpkey hB2nodup hrec
          have htq : tradeQty taker maker ≤ taker.quantity := min_le_left _ _
          refine ⟨?_, ?_, ?_, ?_, ?_, ?_, ih7⟩
          · simpa [stepTaker] using ih1
          · have h2 : taker.quantity - tradeQty taker maker = tF.quantity + qtySum tsF := by
              simpa [stepTaker] using ih2
            rw [qtySum_cons]
            have : (stepTrade taker maker).quantity = tradeQty taker maker := rfl
            rw [this]
            omega
          · intro t ht
            rcases List.mem_cons.mp ht with ht | ht
            · subst ht
              refine ⟨rfl, rfl, rfl, findEligible_trader hfe, ?_⟩
              exact mem_bookIds_of_bid hbids (findEligible_mem hfe)
            · obtain ⟨h1, h2, h3, h4, h5⟩ := ih3 t ht
              refine ⟨by simpa [stepTaker] using h1, by simpa [stepTaker] using h2,
                by simpa [stepTaker] using h3, by simpa [stepTaker] using h4, ?_⟩
              exact hpsub.subset h5
          · intro x
            have h1 := hpq x
            have h2 := ih4 x
            rw [makerFilledQty_cons]
            simp only [stepTrade]
            by_cases hx : maker.order_id = x
            · rw [if_pos hx] at h1 ⊢
              omega
            · rw [if_neg hx] at h1 ⊢
              omega
          · rw [ih5, hpasks]
          · exact ih6.trans hpsub
      · simp only [matchSellLoop, hbids] at hres
        rw [if_neg hguard] at hres
        obtain ⟨rfl, rfl, rfl⟩ : b = b₁ ∧ taker = t₁ ∧ [] = ts := by
          simpa using hres
        refine ⟨rfl, by simp [qtySum_nil], by simp, ?_, rfl, List.Sublist.refl _, hkey⟩
        intro x
        simp [makerFilledQty_nil]

/-! ### Lemmas at the `processOrder` level -/

theorem halfQty_eq_zero {x : Nat} {hb : HalfBook}
    (h : ∀ o ∈ halfOrders hb, o.order_id ≠ x) : halfQty x hb = 0 := by
  induction hb with
  | nil => rfl
  | cons kl rest ih =>
    obtain ⟨k, lvl⟩ := kl
    rw [halfQty_cons]
    rw [halfOrders_cons] at h
    have h1 : levelQty x lvl = 0 :=
      levelQty_eq_zero_of_absent fun y hy => h y (List.mem_append_left _ hy)
    have h2 : halfQty x rest = 0 := ih fun y hy => h y (List.mem_append_right _ hy)
    omega

theorem restingQty_eq_zero {x : Nat} {b : OrderBook}
    (h : x ∉ bookIds b) : restingQty x b = 0 := by
  have hall : ∀ o ∈ bookOrders b, o.order_id ≠ x := by
    intro o ho hc
    exact h (List.mem_map.mpr ⟨o, ho, hc⟩)
  rw [restingQty]
  rw [bookOrders] at hall
  have h1 : halfQty x b.bids = 0 :=
    halfQty_eq_zero fun o ho => hall o (List.mem_append_left _ ho)
  have h2 : halfQty x b.asks = 0 :=
    halfQty_eq_zero fun o ho => hall o (List.mem_append_right _ ho)
  omega

theorem addOrder_wf {b : OrderBook} {o : OrderRequest}
    (hbkey : BidKeyed b.bids) (hakey : AskKeyed b.asks)
    (hnodup : (bookIds b).Nodup) (hfresh : o.order_id ∉ bookIds b) :
    BidKeyed (addOrder b o).bids ∧ AskKeyed (addOrder b o).asks ∧
      (bookIds (addOrder b o)).Nodup := by
  have hnodup' : (bookIds (addOrder b o)).Nodup := by
    rw [(bookIds_addOrder_perm b o).nodup_iff]
    exact List.nodup_cons.mpr ⟨hfresh, hnodup⟩
  by_cases hside : o.side = Side.BUY
  · refine ⟨?_, ?_, hnodup'⟩
    · rw [addOrder, if_pos hside]
      exact insertLevel_bidKeyed hbkey hside (by ring)
    · rw [addOrder, if_pos hside]
      exact hakey
  · have hsell : o.side = Side.SELL := by
      cases hs : o.side
      · exact absurd hs hside
      · rfl
    refine ⟨?_, ?_, hnodup'⟩
    · rw [addOrder, if_neg hside]
      exact hbkey
    · rw [addOrder, if_neg hside]
      exact insertLevel_askKeyed hakey hsell rfl

/-- Everything `processOrder` guarantees about the returned trades and book
when the incoming order's id is fresh: trade provenance, exact conservation
for the incoming id and for every other id, and book well-formedness. -/
theorem processOrder_master {b : OrderBook} {o : OrderRequest} {ts : List Trade}
    {b' : OrderBook}
    (hbkey : BidKeyed b.bids) (hakey : AskKeyed b.asks)
    (hnodup : (bookIds b).Nodup) (hfresh : o.order_id ∉ bookIds b)
    (hres : processOrder b o = (ts, b')) :
    (∀ t ∈ ts, t.taker_order_id = o.order_id ∧ t.maker_order_id ∈ bookIds b) ∧
    filledQty o.order_id ts + restingQty o.order_id b' = o.quantity ∧
    (∀ x, x ≠ o.order_id → restingQty x b' + makerFilledQty x ts = restingQty x b) ∧
    BidKeyed b'.bids ∧ AskKeyed b'.asks ∧ (bookIds b').Nodup ∧
    (∀ i ∈ bookIds b', i ∈ bookIds b ∨ i = o.order_id) := by
  obtain ⟨⟨b₁, o₁, ts₀⟩, hloop⟩ :
      ∃ r : OrderBook × OrderRequest × List Trade, engineLoop b o = r := ⟨_, rfl⟩
  rw [processOrder, hloop] at hres
  obtain ⟨rfl, rfl⟩ : ts₀ = ts ∧ (if o₁.quantity > 0 then addOrder b₁ o₁ else b₁) = b' := by
    simpa using hres
  have hmaster :
      o₁ = { o with quantity := o₁.quantity } ∧
      o.quantity = o₁.quantity + qtySum ts₀ ∧
      (∀ t ∈ ts₀, t.taker_order_id = o.order_id ∧
        t.taker_trader_id = o.trader_id ∧ t.taker_side = o.side ∧
        t.maker_trader_id ≠ o.trader_id ∧ t.maker_order_id ∈ bookIds b) ∧
      (∀ x, restingQty x b = restingQty x b₁ + makerFilledQty x ts₀) ∧
      BidKeyed b₁.bids ∧ AskKeyed b₁.asks ∧
      (bookIds b₁).Sublist (bookIds b) := by
    by_cases hside : o.side = Side.BUY
    · rw [engineLoop, if_pos hside] at hloop
      obtain ⟨m1, m2, m3, m4, m5, m6, m7⟩ :=
        matchBuyLoop_master (engineFuel b o) b o b₁ o₁ ts₀ hakey hnodup hloop
      exact ⟨m1, m2, m3, m4, by rw [m5]; exact hbkey, m7, m6⟩
    · rw [engineLoop, if_neg hside] at hloop
      obtain ⟨m1, m2, m3, m4, m5, m6, m7⟩ :=
        matchSellLoop_master (engineFuel b o) b o b₁ o₁ ts₀ hbkey hnodup hloop
      exact ⟨m1, m2, m3, m4, m7, by rw [m5]; exact hakey, m6⟩
  obtain ⟨hm1, hm2, hm3, hm4, hm5, hm6, hm7⟩ := hmaster
  have hid₁ : o₁.order_id = o.order_id := by rw [hm1]
  have hb₁nodup : (bookIds b₁).Nodup := hnodup.sublist hm7
  have hfresh₁ : o.order_id ∉ bookIds b₁ := fun hc => hfresh (hm7.subset hc)
  have hrest₁ : restingQty o.order_id b₁ = 0 := by
    have h0 : restingQty o.order_id b = 0 := restingQty_eq_zero hfresh
    have := hm4 o.order_id
    omega
  have htaker_ids : ∀ t ∈ ts₀, t.taker_order_id = o.order_id :=
    fun t ht => (hm3 t ht).1
  have hfilled : filledQty o.order_id ts₀ = qtySum ts₀ := filledQty_eq_qtySum htaker_ids
  constructor
  · exact fun t ht => ⟨(hm3 t ht).1, (hm3 t ht).2.2.2.2⟩
  by_cases hq : o₁.quantity > 0
  · rw [if_pos hq] at *
    have hadd := restingQty_addOrder o.order_id b₁ o₁
    rw [hid₁, if_pos rfl] at hadd
    obtain ⟨hk1, hk2, hk3⟩ := addOrder_wf hm5 hm6 hb₁nodup (hid₁ ▸ hfresh₁)
    refine ⟨by rw [hfilled, hadd]; omega, ?_, hk1, hk2, hk3, ?_⟩
    · intro x hx
      have hax := restingQty_addOrder x b₁ o₁
      rw [hid₁, if_neg (Ne.symm hx)] at hax
      have := hm4 x
      omega
    · intro i hi
      have hperm := (bookIds_addOrder_perm b₁ o₁).mem_iff (a := i)
      rcases List.mem_cons.mp (hperm.mp hi) with hi | hi
    -- i is the incoming id or an old id
      · right; rw [hi, hid₁]
      · left; exact hm7.subset hi
  · rw [if_neg hq] at *
    have hq0 : o₁.quantity = 0 := by omega
    refine ⟨by rw [hfilled, hrest₁]; omega, ?_, hm5, hm6, hb₁nodup, ?_⟩
    · intro x hx
      have := hm4 x
      omega
    · intro i hi
      exact Or.inl (hm7.subset hi)

/-! ### Run-level invariant: conservation across a whole submission sequence -/

/-- Invariant carried along a run: the book is well-formed, every resting or
traded id belongs to an already-submitted order, and every submitted order's
filled-plus-resting quantity equals its original quantity. -/
def RunInv (done : List OrderRequest) (b : OrderBook) (ts : List Trade) : Prop :=
  BidKeyed b.bids ∧ AskKeyed b.asks ∧ (bookIds b).Nodup ∧
  (∀ i ∈ bookIds b, i ∈ done.map (fun o => o.order_id)) ∧
  (∀ t ∈ ts, t.taker_order_id ∈ done.map (fun o => o.order_id) ∧
    t.maker_order_id ∈ done.map (fun o => o.order_id)) ∧
  (∀ o ∈ done, filledQty o.order_id ts + restingQty o.order_id b = o.quantity)

theorem runInv_empty : RunInv [] emptyBook [] := by
  refine ⟨?_, ?_, ?_, ?_, ?_, ?_⟩ <;>
    simp [BidKeyed, AskKeyed, bookIds, bookOrders, halfOrders, emptyBook]

theorem runInv_step {done : List OrderRequest} {b : OrderBook} {ts : List Trade}
    {o : OrderRequest} {ts' : List Trade} {b' : OrderBook}
    (hinv : RunInv done b ts)
    (hfresh : o.order_id ∉ done.map (fun x => x.order_id))
    (hres : processOrder b o = (ts', b')) :
    RunInv (done ++ [o]) b' (ts ++ ts') := by
  obtain ⟨hbkey, hakey, hnodup, hids, htr, hacc⟩ := hinv
  have hfreshb : o.order_id ∉ bookIds b := fun hc => hfresh (hids _ hc)
  obtain ⟨hm1, hm2, hm3, hm4, hm5, hm6, hm7⟩ :=
    processOrder_master hbkey hakey hnodup hfreshb hres
  have hmapapp : (done ++ [o]).map (fun x => x.order_id) =
      done.map (fun x => x.order_id) ++ [o.order_id] := by simp
  refine ⟨hm4, hm5, hm6, ?_, ?_, ?_⟩
  · intro i hi
    rw [hmapapp]
    rcases hm7 i hi with h | h
    · exact List.mem_append_left _ (hids i h)
    · exact List.mem_append_right _ (by simp [h])
  · intro t ht
    rw [hmapapp]
    rcases List.mem_append.mp ht with ht | ht
    · exact ⟨List.mem_append_left _ (htr t ht).1, List.mem_append_left _ (htr t ht).2⟩
    · refine ⟨List.mem_append_right _ (by simp [(hm1 t ht).1]), ?_⟩
      exact List.mem_append_left _ (hids _ (hm1 t ht).2)
  · intro u hu
    rcases List.mem_append.mp hu with hu | hu
    · -- an order submitted earlier
      have huid : u.order_id ∈ done.map (fun x => x.order_id) :=
        List.mem_map.mpr ⟨u, hu, rfl⟩
      have hne : u.order_id ≠ o.order_id := fun hc => hfresh (hc ▸ huid)
      have hold := hacc u hu
      have hnew := hm3 u.order_id hne
      have heqf : filledQty u.order_id ts' = makerFilledQty u.order_id ts' := by
        refine filledQty_eq_makerFilledQty ?_
        intro t ht hc
        exact hne.symm (hc ▸ (hm1 t ht).1).symm
      rw [filledQty_append]
      omega
    · -- the order just submitted
      have hu0 : u = o := by simpa using hu
      subst hu0
      have hz : filledQty u.order_id ts = 0 := by
        refine filledQty_eq_zero ?_
        intro t ht
        have := htr t ht
        constructor
        · intro hc
          exact hfresh (hc ▸ this.1)
        · intro hc
          exact hfresh (hc ▸ this.2)
      rw [filledQty_append, hz]
      omega

theorem runOrders_inv :
    ∀ (os : List OrderRequest) (done : List OrderRequest) (b : OrderBook)
      (ts : List Trade),
      RunInv done b ts →
      (((done ++ os).map (fun x => x.order_id)).Nodup) →
      RunInv (done ++ os) (runOrders b ts os).1 (runOrders b ts os).2 := by
  intro os
  induction os with
  | nil =>
    intro done b ts hinv hnodup
    simpa [runOrders] using hinv
  | cons o os ih =>
    intro done b ts hinv hnodup
    obtain ⟨⟨ts', b'⟩, hpo⟩ : ∃ r : List Trade × OrderBook, processOrder b o = r := ⟨_, rfl⟩
    have hfresh : o.order_id ∉ done.map (fun x => x.order_id) := by
      rw [List.map_append] at hnodup
      have hdisj := List.disjoint_of_nodup_append hnodup
      intro hc
      exact hdisj hc (by simp)
    have hstep := runInv_step hinv hfresh hpo
    have hassoc : done ++ o :: os = (done ++ [o]) ++ os := by simp
    have hnodup' : (((done ++ [o]) ++ os).map (fun x => x.order_id)).Nodup := by
      rw [← hassoc]; exact hnodup
    have hrun : runOrders b ts (o :: os) = runOrders b' (ts ++ ts') os := by
      rw [runOrders, hpo]
    rw [hrun, hassoc]
    exact ih (done ++ [o]) b' (ts ++ ts') hstep hnodup'

/-- Conservation over a full run from the empty book. -/
theorem run_conservation (os : List OrderRequest)
    (hnodup : (os.map (fun x => x.order_id)).Nodup) :
    ∀ o ∈ os, filledQty o.order_id (runFromEmpty os).2 +
      restingQty o.order_id (runFromEmpty os).1 = o.quantity := by
  have h := runOrders_inv os [] emptyBook [] runInv_empty (by simpa using hnodup)
  simpa [runFromEmpty] using h.2.2.2.2.2

/-! ### Unconditional frame lemmas on the loops (no book hypotheses) -/

theorem matchBuyLoop_frame (fuel : Nat) :
    ∀ (b : OrderBook) (taker : OrderRequest),
      (matchBuyLoop fuel b taker).2.1 =
        { taker with quantity := (matchBuyLoop fuel b taker).2.1.quantity } ∧
      ∀ t ∈ (matchBuyLoop fuel b taker).2.2,
        t.taker_order_id = taker.order_id ∧ t.taker_trader_id = taker.trader_id ∧
        t.taker_side = taker.side ∧ t.maker_trader_id ≠ taker.trader_id := by
  induction fuel with
  | zero =>
    intro b taker
    rw [matchBuyLoop]
    exact ⟨rfl, by simp⟩
  | succ fuel ih =>
    intro b taker
    cases hasks : b.asks with
    | nil =>
      simp only [matchBuyLoop, hasks]
      exact ⟨by simp, by simp⟩
    | cons kl rest =>
      obtain ⟨k, lvl⟩ := kl
      by_cases hguard : taker.quantity > 0 ∧ k ≤ taker.price
      · cases hfe : findEligible taker.trader_id lvl with
        | none =>
          simp only [matchBuyLoop, hasks, hfe]
          rw [if_pos hguard]
          exact ⟨by simp, by simp⟩
        | some maker =>
          rw [matchBuyLoop_succ_some fuel hasks hguard.1 hguard.2 hfe]
          obtain ⟨ih1, ih2⟩ := ih (buyStepBook b taker maker k lvl rest) (stepTaker taker maker)
          constructor
          · simpa [stepTaker] using ih1
          · intro t ht
            rcases List.mem_cons.mp ht with ht | ht
            · subst ht
              exact ⟨rfl, rfl, rfl, findEligible_trader hfe⟩
            · obtain ⟨h1, h2, h3, h4⟩ := ih2 t ht
              exact ⟨by simpa [stepTaker] using h1, by simpa [stepTaker] using h2,
                by simpa [stepTaker] using h3, by simpa [stepTaker] using h4⟩
      · simp only [matchBuyLoop, hasks]
        rw [if_neg hguard]
        exact ⟨rfl, by simp⟩

theorem matchSellLoop_frame (fuel : Nat) :
    ∀ (b : OrderBook) (taker : OrderRequest),
      (matchSellLoop fuel b taker).2.1 =
        { taker with quantity := (matchSellLoop fuel b taker).2.1.quantity } ∧
      ∀ t ∈ (matchSellLoop fuel b taker).2.2,
        t.taker_order_id = taker.order_id ∧ t.taker_trader_id = taker.trader_id ∧
        t.taker_side = taker.side ∧ t.maker_trader_id ≠ taker.trader_id := by
  induction fuel with
  | zero =>
    intro b taker
    rw [matchSellLoop]
    exact ⟨rfl, by simp⟩
  | succ fuel ih =>
    intro b taker
    cases hbids : b.bids with
    | nil =>
      simp only [matchSellLoop, hbids]
      exact ⟨by simp, by simp⟩
    | cons kl rest =>
      obtain ⟨k, lvl⟩ := kl
      by_cases hguard : taker.quantity > 0 ∧ taker.price ≤ -k
      · cases hfe : findEligible taker.trader_id lvl with
        | none =>
          simp only [matchSellLoop, hbids, hfe]
          rw [if_pos hguard]
          exact ⟨by simp, by simp⟩
        | some maker =>
          rw [matchSellLoop_succ_some fuel hbids hguard.1 hguard.2 hfe]
          obtain ⟨ih1, ih2⟩ := ih (sellStepBook b taker maker k lvl rest) (stepTaker taker maker)
          constructor
          · simpa [stepTaker] using ih1
          · intro t ht
            rcases List.mem_cons.mp ht with ht | ht
            · subst ht
              exact ⟨rfl, rfl, rfl, findEligible_trader hfe⟩
            · obtain ⟨h1, h2, h3, h4⟩ := ih2 t ht
              exact ⟨by simpa [stepTaker] using h1, by simpa [stepTaker] using h2,
                by simpa [stepTaker] using h3, by simpa [stepTaker] using h4⟩
      · simp only [matchSellLoop, hbids]
        rw [if_neg hguard]
        exact ⟨rfl, by simp⟩

theorem engineLoop_frame {b : OrderBook} {o : OrderRequest} :
    (engineLoop b o).2.1 = { o with quantity := (engineLoop b o).2.1.quantity } ∧
    ∀ t ∈ (engineLoop b o).2.2,
      t.taker_order_id = o.order_id ∧ t.taker_trader_id = o.trader_id ∧
      t.taker_side = o.side ∧ t.maker_trader_id ≠ o.trader_id := by
  by_cases hside : o.side = Side.BUY
  · rw [engineLoop, if_pos hside]
    exact matchBuyLoop_frame (engineFuel b o) b o
  · rw [engineLoop, if_neg hside]
    exact matchSellLoop_frame (engineFuel b o) b o

theorem processOrder_trades_eq {b : OrderBook} {o : OrderRequest} :
    (processOrder b o).1 = (engineLoop b o).2.2 := by
  obtain ⟨⟨b₁, o₁, ts₀⟩, hloop⟩ :
      ∃ r : OrderBook × OrderRequest × List Trade, engineLoop b o = r := ⟨_, rfl⟩
  rw [processOrder, hloop]

/-! ### Concrete example orders used by the witnesses -/

/-- A resting SELL: trader 10 offers 5 units at price 100. -/
def exSellA : OrderRequest :=
  { order_id := 1, timestamp := 1, trader_id := 10, side := Side.SELL,
    priority := 1, price := 100, quantity := 5 }

/-- An aggressive BUY: trader 20 bids 8 units at price 101. -/
def exBuyB : OrderRequest :=
  { order_id := 2, timestamp := 2, trader_id := 20, side := Side.BUY,
    priority := 1, price := 101, quantity := 8 }

/-- The book holding only `exSellA`. -/
def exBook1 : OrderBook := addOrder emptyBook exSellA

/-- The trade produced when `exBuyB` hits `exSellA`. -/
def exTradeAB : Trade :=
  { maker_order_id := 1, maker_trader_id := 10, taker_order_id := 2,
    taker_trader_id := 20, price := 100, quantity := 5, taker_side := Side.BUY }

/-! ### Claims -/

/-- C1: for every sequence of orders with distinct ids submitted through
`process_order` starting from the empty book, and at every prefix of the
sequence, each submitted order's filled quantity across all trades involving
it plus its current resting quantity equals its originally submitted
quantity. -/
theorem claim_C1_conservation (os : List OrderRequest)
    (hnodup : (os.map (fun x => x.order_id)).Nodup) (k : Nat) :
    ∀ o ∈ os.take k,
      filledQty o.order_id (runFromEmpty (os.take k)).2 +
        restingQty o.order_id (runFromEmpty (os.take k)).1 = o.quantity := by
  refine run_conservation (os.take k) (hnodup.sublist ?_)
  exact (List.take_sublist k os).map _

/-- Witness for C1 at the concrete two-order run. -/
theorem claim_C1_conservation_witness :
    (([exSellA, exBuyB].map (fun x => x.order_id)).Nodup) ∧
    ∀ o ∈ [exSellA, exBuyB].take 2,
      filledQty o.order_id (runFromEmpty ([exSellA, exBuyB].take 2)).2 +
        restingQty o.order_id (runFromEmpty ([exSellA, exBuyB].take 2)).1 = o.quantity :=
  ⟨by decide, claim_C1_conservation [exSellA, exBuyB] (by decide) 2⟩

/-- C2: no trade generated by `process_order` pairs a maker and a taker of
the same trader, and the engine's level scan picks as maker the first
resting order from a different trader, leaving the skipped same-trader
front of the FIFO in place, unremoved and unreordered. -/
theorem claim_C2_no_self_trade :
    (∀ (b : OrderBook) (o : OrderRequest), ∀ t ∈ (processOrder b o).1,
      t.maker_trader_id ≠ t.taker_trader_id) ∧
    (∀ (tid q : Nat) (lvl : Level) (m : OrderRequest),
      findEligible tid lvl = some m →
      m.trader_id ≠ tid ∧
      ∃ pre post, lvl = pre ++ m :: post ∧ (∀ x ∈ pre, x.trader_id = tid) ∧
        updateEligibleLevel tid q lvl =
          pre ++ ({ m with quantity := m.quantity - q } :: post)) := by
  constructor
  · intro b o t ht
    rw [processOrder_trades_eq] at ht
    obtain ⟨-, h2⟩ := engineLoop_frame (b := b) (o := o)
    obtain ⟨-, htt, -, hmt⟩ := h2 t ht
    rw [htt]
    exact hmt
  · intro tid q lvl m hfe
    exact ⟨findEligible_trader hfe, findEligible_split q hfe⟩

/-- Witness for C2 at a concrete crossing pair and a concrete level scan. -/
theorem claim_C2_no_self_trade_witness :
    (exTradeAB ∈ (processOrder exBook1 exBuyB).1 ∧
      exTradeAB.maker_trader_id ≠ exTradeAB.taker_trader_id) ∧
    (exSellA.trader_id ≠ 20 ∧
      ∃ pre post, [exSellA] = pre ++ exSellA :: post ∧
        (∀ x ∈ pre, x.trader_id = 20) ∧
        updateEligibleLevel 20 5 [exSellA] =
          pre ++ ({ exSellA with quantity := exSellA.quantity - 5 } :: post)) :=
  ⟨⟨by decide, claim_C2_no_self_trade.1 exBook1 exBuyB exTradeAB (by decide)⟩,
   claim_C2_no_self_trade.2 20 5 [exSellA] exSellA (by decide)⟩

/-- C3: every emitted trade's `taker_side` is the incoming side, and the
trade emitted by a loop iteration carries the maker's resting price and
quantity `min(taker, maker)`, which is at most both pre-fill quantities. -/
theorem claim_C3_trade_contents :
    (∀ (b : OrderBook) (o : OrderRequest), ∀ t ∈ (processOrder b o).1,
      t.taker_side = o.side) ∧
    (∀ (fuel : Nat) (b : OrderBook) (taker maker : OrderRequest) (k : Int)
      (lvl : Level) (rest : HalfBook),
      b.asks = (k, lvl) :: rest → 0 < taker.quantity → k ≤ taker.price →
      findEligible taker.trader_id lvl = some maker →
      ∃ ts₁, (matchBuyLoop (fuel + 1) b taker).2.2 =
        { maker_order_id := maker.order_id, maker_trader_id := maker.trader_id,
          taker_order_id := taker.order_id, taker_trader_id := taker.trader_id,
          price := maker.price, quantity := min taker.quantity maker.quantity,
          taker_side := taker.side } :: ts₁ ∧
        min taker.quantity maker.quantity ≤ taker.quantity ∧
        min taker.quantity maker.quantity ≤ maker.quantity) ∧
    (∀ (fuel : Nat) (b : OrderBook) (taker maker : OrderRequest) (k : Int)
      (lvl : Level) (rest : HalfBook),
      b.bids = (k, lvl) :: rest → 0 < taker.quantity → taker.price ≤ -k →
      findEligible taker.trader_id lvl = some maker →
      ∃ ts₁, (matchSellLoop (fuel + 1) b taker).2.2 =
        { maker_order_id := maker.order_id, maker_trader_id := maker.trader_id,
          taker_order_id := taker.order_id, taker_trader_id := taker.trader_id,
          price := maker.price, quantity := min taker.quantity maker.quantity,
          taker_side := taker.side } :: ts₁ ∧
        min taker.quantity maker.quantity ≤ taker.quantity ∧
        min taker.quantity maker.quantity ≤ maker.quantity) := by
  refine ⟨?_, ?_, ?_⟩
  · intro b o t ht
    rw [processOrder_trades_eq] at ht
    obtain ⟨-, h2⟩ := engineLoop_frame (b := b) (o := o)
    exact (h2 t ht).2.2.1
  · intro fuel b taker maker k lvl rest hasks hq hk hfe
    rw [matchBuyLoop_succ_some fuel hasks hq hk hfe]
    exact ⟨_, rfl, min_le_left _ _, min_le_right _ _⟩
  · intro fuel b taker maker k lvl rest hbids hq hk hfe
    rw [matchSellLoop_succ_some fuel hbids hq hk hfe]
    exact ⟨_, rfl, min_le_left _ _, min_le_right _ _⟩

/-- Witness for C3 at the concrete crossing pair. -/
theorem claim_C3_trade_contents_witness :
    (exTradeAB ∈ (processOrder exBook1 exBuyB).1 ∧
      exTradeAB.taker_side = exBuyB.side) ∧
    ∃ ts₁, (matchBuyLoop 1 exBook1 exBuyB).2.2 =
      { maker_order_id := exSellA.order_id, maker_trader_id := exSellA.trader_id,
        taker_order_id := exBuyB.order_id, taker_trader_id := exBuyB.trader_id,
        price := exSellA.price, quantity := min exBuyB.quantity exSellA.quantity,
        taker_side := exBuyB.side } :: ts₁ ∧
      min exBuyB.quantity exSellA.quantity ≤ exBuyB.quantity ∧
      min exBuyB.quantity exSellA.quantity ≤ exSellA.quantity :=
  ⟨⟨by decide, claim_C3_trade_contents.1 exBook1 exBuyB exTradeAB (by decide)⟩,
   claim_C3_trade_contents.2.1 0 exBook1 exBuyB exSellA 100 [exSellA] []
     (by decide) (by decide) (by decide) (by decide)⟩

/-- The first eligible order of a timestamp-sorted level has the earliest
timestamp among all eligible orders of the level. -/
theorem findEligible_earliest {tid : Nat} {lvl : Level} {m : OrderRequest}
    (hsort : List.Pairwise (fun x y => x.timestamp ≤ y.timestamp) lvl)
    (hfe : findEligible tid lvl = some m) :
    ∀ x ∈ lvl, x.trader_id ≠ tid → m.timestamp ≤ x.timestamp := by
  obtain ⟨pre, post, hsplit, hpre, -⟩ := findEligible_split 0 hfe
  subst hsplit
  intro x hx hxt
  rcases List.mem_append.mp hx with hx | hx
  · exact absurd (hpre x hx) hxt
  · rcases List.mem_cons.mp hx with hx | hx
    · rw [hx]
    · have hp : List.Pairwise (fun a c => a.timestamp ≤ c.timestamp) (m :: post) :=
        hsort.sublist (List.sublist_append_right _ _)
      exact (List.pairwise_cons.mp hp).1 x hx

/-- More of the example orders used by the witnesses below. -/
def exSellC : OrderRequest :=
  { order_id := 3, timestamp := 3, trader_id := 11, side := Side.SELL,
    priority := 1, price := 100, quantity := 4 }

/-- The book holding `exSellA` then `exSellC` at the same ask level. -/
def exBook2 : OrderBook := addOrder exBook1 exSellC

/-- A same-trader resting SELL used to block matching. -/
def exSellT20 : OrderRequest :=
  { order_id := 5, timestamp := 1, trader_id := 20, side := Side.SELL,
    priority := 1, price := 100, quantity := 2 }

/-- A worse-priced but eligible SELL from another trader. -/
def exSellD : OrderRequest :=
  { order_id := 6, timestamp := 2, trader_id := 11, side := Side.SELL,
    priority := 1, price := 101, quantity := 4 }

/-- Book with a same-trader best ask level and an eligible worse level. -/
def exBook3 : OrderBook := addOrder (addOrder emptyBook exSellT20) exSellD

/-- A crossing BUY from trader 20 against `exBook3`. -/
def exBuyT20 : OrderRequest :=
  { order_id := 7, timestamp := 3, trader_id := 20, side := Side.BUY,
    priority := 1, price := 102, quantity := 3 }

/-- A non-crossing BUY below the best ask of `exBook1`. -/
def exBuyLow : OrderRequest :=
  { order_id := 4, timestamp := 4, trader_id := 20, side := Side.BUY,
    priority := 1, price := 99, quantity := 2 }

/-- C5: when the orders at the best opposite level are sorted by timestamp
(the FIFO arrival order), the trade emitted by the loop iteration matches
the eligible maker with the earliest timestamp. -/
theorem claim_C5_time_priority :
    (∀ (fuel : Nat) (b : OrderBook) (taker maker : OrderRequest) (k : Int)
      (lvl : Level) (rest : HalfBook),
      b.asks = (k, lvl) :: rest → 0 < taker.quantity → k ≤ taker.price →
      List.Pairwise (fun x y => x.timestamp ≤ y.timestamp) lvl →
      findEligible taker.trader_id lvl = some maker →
      ∃ ts₁, (matchBuyLoop (fuel + 1) b taker).2.2 = stepTrade taker maker :: ts₁ ∧
        (stepTrade taker maker).maker_order_id = maker.order_id ∧
        maker ∈ lvl ∧ maker.trader_id ≠ taker.trader_id ∧
        (∀ x ∈ lvl, x.trader_id ≠ taker.trader_id → maker.timestamp ≤ x.timestamp)) ∧
    (∀ (fuel : Nat) (b : OrderBook) (taker maker : OrderRequest) (k : Int)
      (lvl : Level) (rest : HalfBook),
      b.bids = (k, lvl) :: rest → 0 < taker.quantity → taker.price ≤ -k →
      List.Pairwise (fun x y => x.timestamp ≤ y.timestamp) lvl →
      findEligible taker.trader_id lvl = some maker →
      ∃ ts₁, (matchSellLoop (fuel + 1) b taker).2.2 = stepTrade taker maker :: ts₁ ∧
        (stepTrade taker maker).maker_order_id = maker.order_id ∧
        maker ∈ lvl ∧ maker.trader_id ≠ taker.trader_id ∧
        (∀ x ∈ lvl, x.trader_id ≠ taker.trader_id → maker.timestamp ≤ x.timestamp)) := by
  constructor
  · intro fuel b taker maker k lvl rest hasks hq hk hsort hfe
    rw [matchBuyLoop_succ_some fuel hasks hq hk hfe]
    exact ⟨_, rfl, rfl, findEligible_mem hfe, findEligible_trader hfe,
      findEligible_earliest hsort hfe⟩
  · intro fuel b taker maker k lvl rest hbids hq hk hsort hfe
    rw [matchSellLoop_succ_some fuel hbids hq hk hfe]
    exact ⟨_, rfl, rfl, findEligible_mem hfe, findEligible_trader hfe,
      findEligible_earliest hsort hfe⟩

/-- Witness for C5: two eligible asks at the best level, earliest matched. -/
theorem claim_C5_time_priority_witness :
    ∃ ts₁, (matchBuyLoop 1 exBook2 exBuyB).2.2 = stepTrade exBuyB exSellA :: ts₁ ∧
      (stepTrade exBuyB exSellA).maker_order_id = exSellA.order_id ∧
      exSellA ∈ [exSellA, exSellC] ∧ exSellA.trader_id ≠ exBuyB.trader_id ∧
      (∀ x ∈ [exSellA, exSellC], x.trader_id ≠ exBuyB.trader_id →
        exSellA.timestamp ≤ x.timestamp) :=
  claim_C5_time_priority.1 0 exBook2 exBuyB exSellA 100 [exSellA, exSellC] []
    (by decide) (by decide) (by decide) (by decide) (by decide)

/-- C6: when every order at the best opposite level belongs to the incoming
trader, matching stops entirely: no trades are emitted and the incoming
order rests — even when a worse opposite level still crosses and holds
eligible makers from other traders. -/
theorem claim_C6_best_level_halt :
    (∀ (b : OrderBook) (o : OrderRequest) (k : Int) (lvl : Level) (rest : HalfBook),
      o.side = Side.BUY → b.asks = (k, lvl) :: rest → 0 < o.quantity →
      k ≤ o.price → (∀ x ∈ lvl, x.trader_id = o.trader_id) →
      processOrder b o = ([], addOrder b o)) ∧
    (∀ (b : OrderBook) (o : OrderRequest) (k : Int) (lvl : Level) (rest : HalfBook),
      o.side = Side.SELL → b.bids = (k, lvl) :: rest → 0 < o.quantity →
      o.price ≤ -k → (∀ x ∈ lvl, x.trader_id = o.trader_id) →
      processOrder b o = ([], addOrder b o)) := by
  constructor
  · intro b o k lvl rest hside hasks hq hk hall
    have hfe : findEligible o.trader_id lvl = none := findEligible_eq_none.mpr hall
    have hloop : engineLoop b o = (b, o, []) := by
      rw [engineLoop, if_pos hside]
      rw [show engineFuel b o = (o.quantity + orderCount b) + 1 from rfl]
      simp only [matchBuyLoop, hasks, hfe]
      rw [if_pos ⟨hq, hk⟩]
    rw [processOrder, hloop]
    simp [hq]
  · intro b o k lvl rest hside hbids hq hk hall
    have hfe : findEligible o.trader_id lvl = none := findEligible_eq_none.mpr hall
    have hnb : ¬(o.side = Side.BUY) := by rw [hside]; intro hc; cases hc
    have hloop : engineLoop b o = (b, o, []) := by
      rw [engineLoop, if_neg hnb]
      rw [show engineFuel b o = (o.quantity + orderCount b) + 1 from rfl]
      simp only [matchSellLoop, hbids, hfe]
      rw [if_pos ⟨hq, hk⟩]
    rw [processOrder, hloop]
    simp [hq]

/-- Witness for C6: the best ask level holds only the incoming trader's own
order while the worse level 101 still crosses the BUY at 102 and belongs to
another trader; matching nevertheless halts with zero trades. -/
theorem claim_C6_best_level_halt_witness :
    (processOrder exBook3 exBuyT20 = ([], addOrder exBook3 exBuyT20)) ∧
    exBook3.asks = [(100, [exSellT20]), (101, [exSellD])] ∧
    (101 : Int) ≤ exBuyT20.price ∧ exSellD.trader_id ≠ exBuyT20.trader_id ∧
    0 < exSellD.quantity :=
  ⟨claim_C6_best_level_halt.1 exBook3 exBuyT20 100 [exSellT20] [(101, [exSellD])]
      (by decide) (by decide) (by decide) (by decide) (by decide),
   by decide, by decide, by decide, by decide⟩

/-- C7: a valid order never fails: when it does not cross the opposite best
price (or the opposite side is empty), `process_order` returns the empty
trade list and the order rests in the book with its full quantity. -/
theorem claim_C7_non_crossing_rests (b : OrderBook) (o : OrderRequest)
    (hq : 0 < o.quantity) (hp : 0 < o.price)
    (hbuy : o.side = Side.BUY → ∀ a, bestAsk b = some a → o.price < a)
    (hsell : o.side = Side.SELL → ∀ p, bestBid b = some p → p < o.price) :
    processOrder b o = ([], addOrder b o) := by
  by_cases hside : o.side = Side.BUY
  · have hloop : engineLoop b o = (b, o, []) := by
      rw [engineLoop, if_pos hside]
      rw [show engineFuel b o = (o.quantity + orderCount b) + 1 from rfl]
      cases hasks : b.asks with
      | nil => simp only [matchBuyLoop, hasks]
      | cons kl rest =>
        obtain ⟨k, lvl⟩ := kl
        have ha : bestAsk b = some k := by rw [bestAsk, hasks]
        have hlt : o.price < k := hbuy hside k ha
        simp only [matchBuyLoop, hasks]
        rw [if_neg (by intro hc; omega)]
    rw [processOrder, hloop]
    simp [hq]
  · have hsideS : o.side = Side.SELL := by
      cases hs : o.side
      · exact absurd hs hside
      · rfl
    have hloop : engineLoop b o = (b, o, []) := by
      rw [engineLoop, if_neg hside]
      rw [show engineFuel b o = (o.quantity + orderCount b) + 1 from rfl]
      cases hbids : b.bids with
      | nil => simp only [matchSellLoop, hbids]
      | cons kl rest =>
        obtain ⟨k, lvl⟩ := kl
        have hb : bestBid b = some (-k) := by rw [bestBid, hbids]
        have hlt : -k < o.price := hsell hsideS (-k) hb
        simp only [matchSellLoop, hbids]
        rw [if_neg (by intro hc; omega)]
    rw [processOrder, hloop]
    simp [hq]

/-- Witness for C7: a BUY at 99 against a book whose best ask is 100 rests
fully with zero trades. -/
theorem claim_C7_non_crossing_rests_witness :
    processOrder exBook1 exBuyLow = ([], addOrder exBook1 exBuyLow) :=
  claim_C7_non_crossing_rests exBook1 exBuyLow (by decide) (by decide)
    (fun _ a ha => by
      have : a = 100 := by
        have : bestAsk exBook1 = some 100 := by decide
        rw [this] at ha
        exact (Option.some.injEq _ _).mp ha.symm
      rw [this]; decide)
    (fun hc => by cases hc)

/-- C8: the matching loop changes nothing of the incoming order but its
quantity; when a positive remainder is left, `process_order` inserts that
very order — same `order_id`, `timestamp`, `trader_id`, `side`, `price` and
`priority` — into the book. -/
theorem claim_C8_remainder_identity (b : OrderBook) (o : OrderRequest)
    (b₁ : OrderBook) (o₁ : OrderRequest) (ts : List Trade)
    (hres : engineLoop b o = (b₁, o₁, ts)) :
    o₁ = { o with quantity := o₁.quantity } ∧
    (0 < o₁.quantity →
      (processOrder b o).2 = addOrder b₁ o₁ ∧
      o₁.order_id = o.order_id ∧ o₁.timestamp = o.timestamp ∧
      o₁.trader_id = o.trader_id ∧ o₁.side = o.side ∧
      o₁.price = o.price ∧ o₁.priority = o.priority) := by
  have hf := engineLoop_frame (b := b) (o := o)
  rw [hres] at hf
  have ho₁ : o₁ = { o with quantity := o₁.quantity } := by simpa using hf.1
  refine ⟨ho₁, fun hq => ⟨?_, ?_, ?_, ?_, ?_, ?_, ?_⟩⟩
  · rw [processOrder, hres]
    simp [hq]
  · rw [ho₁]
  · rw [ho₁]
  · rw [ho₁]
  · rw [ho₁]
  · rw [ho₁]
  · rw [ho₁]

/-- Witness for C8: the BUY at 101 is left with quantity 3 after consuming
the ask and rests with its original identity. -/
theorem claim_C8_remainder_identity_witness :
    (engineLoop exBook1 exBuyB =
      ({ bids := [], asks := [] }, { exBuyB with quantity := 3 }, [exTradeAB])) ∧
    ({ exBuyB with quantity := 3 } : OrderRequest) =
      { exBuyB with quantity := ({ exBuyB with quantity := 3 } : OrderRequest).quantity } ∧
    (0 < ({ exBuyB with quantity := 3 } : OrderRequest).quantity →
      (processOrder exBook1 exBuyB).2 =
        addOrder { bids := [], asks := [] } { exBuyB with quantity := 3 } ∧
      ({ exBuyB with quantity := 3 } : OrderRequest).order_id = exBuyB.order_id ∧
      ({ exBuyB with quantity := 3 } : OrderRequest).timestamp = exBuyB.timestamp ∧
      ({ exBuyB with quantity := 3 } : OrderRequest).trader_id = exBuyB.trader_id ∧
      ({ exBuyB with quantity := 3 } : OrderRequest).side = exBuyB.side ∧
      ({ exBuyB with quantity := 3 } : OrderRequest).price = exBuyB.price ∧
      ({ exBuyB with quantity := 3 } : OrderRequest).priority = exBuyB.priority) :=
  ⟨by decide,
   claim_C8_remainder_identity exBook1 exBuyB { bids := [], asks := [] }
     { exBuyB with quantity := 3 } [exTradeAB] (by decide)⟩

theorem mem_halfOrders {hb : HalfBook} {kl : Int × Level} {o : OrderRequest}
    (hkl : kl ∈ hb) (ho : o ∈ kl.2) : o ∈ halfOrders hb := by
  rw [halfOrders]
  exact List.mem_flatMap.mpr ⟨kl, hkl, ho⟩

/-- An order used to probe removal of an absent id. -/
def exGhost : OrderRequest :=
  { order_id := 99, timestamp := 9, trader_id := 30, side := Side.SELL,
    priority := 1, price := 100, quantity := 7 }

/-- C10: removing an order whose id is nowhere in the book is a no-op, and
when the id is present at the order's price level, exactly the first entry
carrying it is removed and the level is deleted precisely when it became
empty. -/
theorem claim_C10_remove_idempotent :
    (∀ (b : OrderBook) (o : OrderRequest),
      (∀ x ∈ bookOrders b, x.order_id ≠ o.order_id) → removeOrder b o = b) ∧
    (∀ (oid : Nat) (pre post : Level) (x : OrderRequest),
      x.order_id = oid → (∀ y ∈ pre, y.order_id ≠ oid) →
      removeFromLevel oid (pre ++ x :: post) = pre ++ post) ∧
    (∀ (oid : Nat) (k : Int) (front back : HalfBook) (lvl : Level),
      (∀ kl ∈ front, kl.1 ≠ k) → lvl.any (fun o => o.order_id = oid) = true →
      removeSide oid k (front ++ (k, lvl) :: back) =
        front ++ (if (removeFromLevel oid lvl).isEmpty then back
          else (k, removeFromLevel oid lvl) :: back)) := by
  refine ⟨?_, ?_, ?_⟩
  · intro b o hab
    have hbids : ∀ kl ∈ b.bids, ∀ y ∈ kl.2, y.order_id ≠ o.order_id := by
      intro kl hkl y hy
      exact hab y (List.mem_append_left _ (mem_halfOrders hkl hy))
    have hasks : ∀ kl ∈ b.asks, ∀ y ∈ kl.2, y.order_id ≠ o.order_id := by
      intro kl hkl y hy
      exact hab y (List.mem_append_right _ (mem_halfOrders hkl hy))
    rw [removeOrder]
    by_cases hside : o.side = Side.BUY
    · rw [if_pos hside, removeSide_absent hbids]
    · rw [if_neg hside, removeSide_absent hasks]
  · intro oid pre post x hx hpre
    exact removeFromLevel_of_front hx hpre
  · intro oid k front back lvl hfront hany
    induction front with
    | nil =>
      rw [List.nil_append, List.nil_append, removeSide_head, if_pos hany]
    | cons kl front' ih =>
      obtain ⟨k₀, l₀⟩ := kl
      have hk₀ : k₀ ≠ k := hfront (k₀, l₀) (List.mem_cons_self _ _)
      rw [List.cons_append, removeSide, if_neg hk₀, List.cons_append]
      exact congrArg _ (ih fun kl hkl => hfront kl (List.mem_cons_of_mem _ hkl))

/-- Witness for C10: removing an absent id from `exBook1` changes nothing;
removing id 1 from the level `[exSellA, exSellC]` drops exactly the first
entry; the level at key 100 is rewritten in place inside the half book. -/
theorem claim_C10_remove_idempotent_witness :
    ((∀ x ∈ bookOrders exBook1, x.order_id ≠ exGhost.order_id) ∧
      removeOrder exBook1 exGhost = exBook1) ∧
    (removeFromLevel 1 ([] ++ exSellA :: [exSellC]) = [] ++ [exSellC]) ∧
    (removeSide 1 100 ([(99, [exGhost])] ++ (100, [exSellA]) :: []) =
      [(99, [exGhost])] ++ (if (removeFromLevel 1 [exSellA]).isEmpty then []
        else (100, removeFromLevel 1 [exSellA]) :: [])) :=
  ⟨⟨by decide, claim_C10_remove_idempotent.1 exBook1 exGhost (by decide)⟩,
   claim_C10_remove_idempotent.2.1 1 [] [exSellC] exSellA (by decide) (by decide),
   claim_C10_remove_idempotent.2.2 1 100 [(99, [exGhost])] [] [exSellA]
     (by decide) (by decide)⟩

/-- C9: the matching engine passes `maker_trader_id` and `taker_trader_id`
to the `Trade(...)` constructor and the spec requires them on every trade
record, but the pydantic `Trade` model in `config/trade.py` does not declare
either field, so (with pydantic's default handling of unknown keyword
arguments) the `Trade` value returned to the caller does not carry them. -/
theorem claim_C9_trade_fields :
    ("maker_trader_id" ∈ engineTradeCallFields ∧
      "taker_trader_id" ∈ engineTradeCallFields) ∧
    ("maker_trader_id" ∈ specTradeFields ∧ "taker_trader_id" ∈ specTradeFields) ∧
    ("maker_trader_id" ∉ tradePyDeclaredFields ∧
      "taker_trader_id" ∉ tradePyDeclaredFields) := by
  refine ⟨⟨?_, ?_⟩, ⟨?_, ?_⟩, ⟨?_, ?_⟩⟩ <;> decide

/-! ### Structural preservation through one buy-loop iteration (for the
non-crossing analysis) -/

theorem buyStep_structure {b : OrderBook} {taker maker : OrderRequest} {k : Int}
    {lvl : Level} {rest : HalfBook}
    (hasks : b.asks = (k, lvl) :: rest)
    (hinv : BookInv b)
    (hfe : findEligible taker.trader_id lvl = some maker) :
    SortedKeys (buyStepBook b taker maker k lvl rest).asks ∧
    LevelsNonempty (buyStepBook b taker maker k lvl rest).asks ∧
    QtyPos (buyStepBook b taker maker k lvl rest).asks ∧
    (∀ k₁ lvl₁ rest₁, (buyStepBook b taker maker k lvl rest).asks = (k₁, lvl₁) :: rest₁ →
      k ≤ k₁) := by
  obtain ⟨pre, post, hsplit, hpre, heq⟩ :=
    buyStep_book_eq (tradeQty taker maker) hasks hinv.askKeyed hinv.idsNodup hfe
  have hstep : buyStepBook b taker maker k lvl rest =
      { bids := b.bids,
        asks := if maker.quantity - tradeQty taker maker = 0 then
            (if pre ++ post = [] then rest else (k, pre ++ post) :: rest)
          else (k, pre ++ ({ maker with quantity := maker.quantity - tradeQty taker maker } :: post)) :: rest } := by
    rw [buyStepBook]; exact heq
  have hsorted : List.Pairwise (fun x y : Int × Level => x.1 < y.1) ((k, lvl) :: rest) := by
    rw [← hasks]; exact hinv.askSorted
  rw [List.pairwise_cons] at hsorted
  obtain ⟨hkrest, hrestsorted⟩ := hsorted
  have hne : LevelsNonempty ((k, lvl) :: rest) := by rw [← hasks]; exact hinv.askNe
  have hqty : QtyPos ((k, lvl) :: rest) := by rw [← hasks]; exact hinv.askQty
  have hneR : LevelsNonempty rest := fun kl hkl => hne kl (List.mem_cons_of_mem _ hkl)
  have hqtyR : QtyPos rest := fun kl hkl => hqty kl (List.mem_cons_of_mem _ hkl)
  have hqtyL : ∀ x ∈ lvl, 0 < x.quantity :=
    fun x hx => hqty (k, lvl) (List.mem_cons_self _ _) x hx
  rw [hstep]
  by_cases hz : maker.quantity - tradeQty taker maker = 0
  · rw [if_pos hz]
    by_cases hpp : pre ++ post = []
    · rw [if_pos hpp]
      refine ⟨hrestsorted, hneR, hqtyR, ?_⟩
      intro k₁ lvl₁ rest₁ h₁
      have h₁' : rest = (k₁, lvl₁) :: rest₁ := h₁
      have : (k₁, lvl₁) ∈ rest := by rw [h₁']; exact List.mem_cons_self _ _
      exact le_of_lt (hkrest (k₁, lvl₁) this)
    · rw [if_neg hpp]
      refine ⟨List.Pairwise.cons hkrest hrestsorted, ?_, ?_, ?_⟩
      · intro kl hkl
        rcases List.mem_cons.mp hkl with hkl | hkl
        · rw [hkl]; exact hpp
        · exact hneR kl hkl
      · intro kl hkl x hx
        rcases List.mem_cons.mp hkl with hkl | hkl
        · subst hkl
          have : x ∈ lvl := by
            rw [hsplit]
            rcases List.mem_append.mp hx with h | h
            · exact List.mem_append_left _ h
            · exact List.mem_append_right _ (List.mem_cons_of_mem _ h)
          exact hqtyL x this
        · exact hqtyR kl hkl x hx
      · intro k₁ lvl₁ rest₁ h₁
        have : k₁ = k := by
          have := congrArg (fun l => l.head?) h₁
          exact ((by simpa using this.symm : k₁ = k ∧ lvl₁ = pre ++ post)).1
        omega
  · rw [if_neg hz]
    refine ⟨List.Pairwise.cons hkrest hrestsorted, ?_, ?_, ?_⟩
    · intro kl hkl
      rcases List.mem_cons.mp hkl with hkl | hkl
      · rw [hkl]; simp
      · exact hneR kl hkl
    · intro kl hkl x hx
      rcases List.mem_cons.mp hkl with hkl | hkl
      · subst hkl
        rcases List.mem_append.mp hx with h | h
        · exact hqtyL x (by rw [hsplit]; exact List.mem_append_left _ h)
        · rcases List.mem_cons.mp h with h | h
          · subst h
            simpa using Nat.pos_of_ne_zero hz
          · exact hqtyL x (by rw [hsplit]; exact List.mem_append_right _ (List.mem_cons_of_mem _ h))
      · exact hqtyR kl hkl x hx
    · intro k₁ lvl₁ rest₁ h₁
      have : k₁ = k := by
        have := congrArg (fun l => l.head?) h₁
        exact ((by simpa using this.symm :
          k₁ = k ∧ lvl₁ = pre ++
            ({ maker with quantity := maker.quantity - tradeQty taker maker } :: post))).1
      omega

/-- One buy-loop iteration keeps the full book invariant. -/
theorem buyStep_bookInv {b : OrderBook} {taker maker : OrderRequest} {k : Int}
    {lvl : Level} {rest : HalfBook}
    (hasks : b.asks = (k, lvl) :: rest)
    (hinv : BookInv b)
    (hfe : findEligible taker.trader_id lvl = some maker) :
    BookInv (buyStepBook b taker maker k lvl rest) := by
  obtain ⟨hp1, hp2, hp3, hp4⟩ := buyStep_props hasks hinv.askKeyed hinv.idsNodup hfe
  obtain ⟨hs1, hs2, hs3, hs4⟩ := buyStep_structure hasks hinv hfe
  exact
    { bidKeyed := by rw [hp1]; exact hinv.bidKeyed
      askKeyed := hp2
      bidSorted := by rw [hp1]; exact hinv.bidSorted
      askSorted := hs1
      bidNe := by rw [hp1]; exact hinv.bidNe
      askNe := hs2
      bidQty := by rw [hp1]; exact hinv.bidQty
      askQty := hs3
      idsNodup := hinv.idsNodup.sublist hp3 }

/-- Structural master lemma for the buy loop: the invariant is preserved,
the bids are untouched, the best ask only worsens, and with enough fuel the
loop ends in one of the three source exit conditions. -/
theorem matchBuyLoop_structure (fuel : Nat) :
    ∀ (b : OrderBook) (taker : OrderRequest) (b₁ : OrderBook) (t₁ : OrderRequest)
      (ts : List Trade),
      BookInv b →
      matchBuyLoop fuel b taker = (b₁, t₁, ts) →
      BookInv b₁ ∧ b₁.bids = b.bids ∧
      (∀ k₁ lvl₁ rest₁, b₁.asks = (k₁, lvl₁) :: rest₁ →
        ∃ k₀ lvl₀ rest₀, b.asks = (k₀, lvl₀) :: rest₀ ∧ k₀ ≤ k₁) ∧
      (taker.quantity + 1 ≤ fuel →
        t₁.quantity = 0 ∨ b₁.asks = [] ∨
        ∃ k₁ lvl₁ rest₁, b₁.asks = (k₁, lvl₁) :: rest₁ ∧
          (t₁.price < k₁ ∨ findEligible t₁.trader_id lvl₁ = none)) := by
  induction fuel with
  | zero =>
    intro b taker b₁ t₁ ts hinv hres
    rw [matchBuyLoop] at hres
    obtain ⟨rfl, rfl, rfl⟩ : b = b₁ ∧ taker = t₁ ∧ [] = ts := by
      simpa using hres
    exact ⟨hinv, rfl, fun k₁ lvl₁ rest₁ h₁ => ⟨k₁, lvl₁, rest₁, h₁, le_refl _⟩,
      fun hf => absurd hf (by omega)⟩
  | succ fuel ih =>
    intro b taker b₁ t₁ ts hinv hres
    cases hasks : b.asks with
    | nil =>
      simp only [matchBuyLoop, hasks] at hres
      obtain ⟨rfl, rfl, rfl⟩ : b = b₁ ∧ taker = t₁ ∧ [] = ts := by
        simpa using hres
      refine ⟨hinv, rfl, ?_, fun _ => Or.inr (Or.inl hasks)⟩
      intro k₁ lvl₁ rest₁ h₁
      rw [hasks] at h₁
      cases h₁
    | cons kl rest =>
      obtain ⟨k, lvl⟩ := kl
      by_cases hguard : taker.quantity > 0 ∧ k ≤ taker.price
      · cases hfe : findEligible taker.trader_id lvl with
        | none =>
          simp only [matchBuyLoop, hasks, hfe] at hres
          rw [if_pos hguard] at hres
          obtain ⟨rfl, rfl, rfl⟩ : b = b₁ ∧ taker = t₁ ∧ [] = ts := by
            simpa using hres
          exact ⟨hinv, rfl, fun k₁ lvl₁ rest₁ h₁ => ⟨k₁, lvl₁, rest₁, hasks ▸ h₁, le_refl _⟩,
            fun _ => Or.inr (Or.inr ⟨k, lvl, rest, hasks, Or.inr hfe⟩)⟩
        | some maker =>
          rw [matchBuyLoop_succ_some fuel hasks hguard.1 hguard.2 hfe] at hres
          obtain ⟨⟨bF, tF, tsF⟩, hrec⟩ :
              ∃ r : OrderBook × OrderRequest × List Trade,
                matchBuyLoop fuel (buyStepBook b taker maker k lvl rest)
                  (stepTaker taker maker) = r := ⟨_, rfl⟩
          rw [hrec] at hres
          obtain ⟨rfl, rfl, rfl⟩ : bF = b₁ ∧ tF = t₁ ∧ stepTrade taker maker :: tsF = ts := by
            simpa using hres
          have hinv₂ := buyStep_bookInv hasks hinv hfe
          obtain ⟨hp1, -, -, -⟩ := buyStep_props hasks hinv.askKeyed hinv.idsNodup hfe
          obtain ⟨-, -, -, hs4⟩ := buyStep_structure hasks hinv hfe
          obtain ⟨ih1, ih2, ih3, ih4⟩ :=
            ih (buyStepBook b taker maker k lvl rest) (stepTaker taker maker)
              bF tF tsF hinv₂ hrec
          refine ⟨ih1, by rw [ih2, hp1], ?_, ?_⟩
          · intro k₁ lvl₁ rest₁ h₁
            obtain ⟨k₂, lvl₂, rest₂, h₂, hk₂⟩ := ih3 k₁ lvl₁ rest₁ h₁
            exact ⟨k, lvl, rest, rfl, le_trans (hs4 k₂ lvl₂ rest₂ h₂) hk₂⟩
          · intro hfuel
            have hmq : 0 < maker.quantity :=
              hinv.askQty (k, lvl) (by rw [hasks]; exact List.mem_cons_self _ _)
                maker (findEligible_mem hfe)
            have htq : 0 < tradeQty taker maker := by
              rw [tradeQty]
              exact lt_min hguard.1 hmq
            refine ih4 ?_
            have : (stepTaker taker maker).quantity = taker.quantity - tradeQty taker maker := rfl
            omega
      · simp only [matchBuyLoop, hasks] at hres
        rw [if_neg hguard] at hres
        obtain ⟨rfl, rfl, rfl⟩ : b = b₁ ∧ taker = t₁ ∧ [] = ts := by
          simpa using hres
        refine ⟨hinv, rfl, fun k₁ lvl₁ rest₁ h₁ => ⟨k₁, lvl₁, rest₁, hasks ▸ h₁, le_refl _⟩, ?_⟩
        intro hfuel
        rw [not_and_or] at hguard
        rcases hguard with hg | hg
        · left
          omega
        · exact Or.inr (Or.inr ⟨k, lvl, rest, hasks, Or.inl (by omega)⟩)

theorem sellStep_structure {b : OrderBook} {taker maker : OrderRequest} {k : Int}
    {lvl : Level} {rest : HalfBook}
    (hbids : b.bids = (k, lvl) :: rest)
    (hinv : BookInv b)
    (hfe : findEligible taker.trader_id lvl = some maker) :
    SortedKeys (sellStepBook b taker maker k lvl rest).bids ∧
    LevelsNonempty (sellStepBook b taker maker k lvl rest).bids ∧
    QtyPos (sellStepBook b taker maker k lvl rest).bids ∧
    (∀ k₁ lvl₁ rest₁, (sellStepBook b taker maker k lvl rest).bids = (k₁, lvl₁) :: rest₁ →
      k ≤ k₁) := by
  obtain ⟨pre, post, hsplit, hpre, heq⟩ :=
    sellStep_book_eq (tradeQty taker maker) hbids hinv.bidKeyed hinv.idsNodup hfe
  have hstep : sellStepBook b taker maker k lvl rest =
      { bids := if maker.quantity - tradeQty taker maker = 0 then
            (if pre ++ post = [] then rest else (k, pre ++ post) :: rest)
          else (k, pre ++ ({ maker with quantity := maker.quantity - tradeQty taker maker } :: post)) :: rest,
        asks := b.asks } := by
    rw [sellStepBook]; exact heq
  have hsorted : List.Pairwise (fun x y : Int × Level => x.1 < y.1) ((k, lvl) :: rest) := by
    rw [← hbids]; exact hinv.bidSorted
  rw [List.pairwise_cons] at hsorted
  obtain ⟨hkrest, hrestsorted⟩ := hsorted
  have hne : LevelsNonempty ((k, lvl) :: rest) := by rw [← hbids]; exact hinv.bidNe
  have hqty : QtyPos ((k, lvl) :: rest) := by rw [← hbids]; exact hinv.bidQty
  have hneR : LevelsNonempty rest := fun kl hkl => hne kl (List.mem_cons_of_mem _ hkl)
  have hqtyR : QtyPos rest := fun kl hkl => hqty kl (List.mem_cons_of_mem _ hkl)
  have hqtyL : ∀ x ∈ lvl, 0 < x.quantity :=
    fun x hx => hqty (k, lvl) (List.mem_cons_self _ _) x hx
  rw [hstep]
  by_cases hz : maker.quantity - tradeQty taker maker = 0
  · rw [if_pos hz]
    by_cases hpp : pre ++ post = []
    · rw [if_pos hpp]
      refine ⟨hrestsorted, hneR, hqtyR, ?_⟩
      intro k₁ lvl₁ rest₁ h₁
      have h₁' : rest = (k₁, lvl₁) :: rest₁ := h₁
      have : (k₁, lvl₁) ∈ rest := by rw [h₁']; exact List.mem_cons_self _ _
      exact le_of_lt (hkrest (k₁, lvl₁) this)
    · rw [if_neg hpp]
      refine ⟨List.Pairwise.cons hkrest hrestsorted, ?_, ?_, ?_⟩
      · intro kl hkl
        rcases List.mem_cons.mp hkl with hkl | hkl
        · rw [hkl]; exact hpp
        · exact hneR kl hkl
      · intro kl hkl x hx
        rcases List.mem_cons.mp hkl with hkl | hkl
        · subst hkl
          have : x ∈ lvl := by
            rw [hsplit]
            rcases List.mem_append.mp hx with h | h
            · exact List.mem_append_left _ h
            · exact List.mem_append_right _ (List.mem_cons_of_mem _ h)
          exact hqtyL x this
        · exact hqtyR kl hkl x hx
      · intro k₁ lvl₁ rest₁ h₁
        have : k₁ = k := by
          have := congrArg (fun l => l.head?) h₁
          exact ((by simpa using this.symm : k₁ = k ∧ lvl₁ = pre ++ post)).1
        omega
  · rw [if_neg hz]
    refine ⟨List.Pairwise.cons hkrest hrestsorted, ?_, ?_, ?_⟩
    · intro kl hkl
      rcases List.mem_cons.mp hkl with hkl | hkl
      · rw [hkl]; simp
      · exact hneR kl hkl
    · intro kl hkl x hx
      rcases List.mem_cons.mp hkl with hkl | hkl
      · subst hkl
        rcases List.mem_append.mp hx with h | h
        · exact hqtyL x (by rw [hsplit]; exact List.mem_append_left _ h)
        · rcases List.mem_cons.mp h with h | h
          · subst h
            simpa using Nat.pos_of_ne_zero hz
          · exact hqtyL x (by rw [hsplit]; exact List.mem_append_right _ (List.mem_cons_of_mem _ h))
      · exact hqtyR kl hkl x hx
    · intro k₁ lvl₁ rest₁ h₁
      have : k₁ = k := by
        have := congrArg (fun l => l.head?) h₁
        exact ((by simpa using this.symm :
          k₁ = k ∧ lvl₁ = pre ++
            ({ maker with quantity := maker.quantity - tradeQty taker maker } :: post))).1
      omega

/-- One sell-loop iteration keeps the full book invariant. -/
theorem sellStep_bookInv {b : OrderBook} {taker maker : OrderRequest} {k : Int}
    {lvl : Level} {rest : HalfBook}
    (hbids : b.bids = (k, lvl) :: rest)
    (hinv : BookInv b)
    (hfe : findEligible taker.trader_id lvl = some maker) :
    BookInv (sellStepBook b taker maker k lvl rest) := by
  obtain ⟨hp1, hp2, hp3, hp4⟩ := sellStep_props hbids hinv.bidKeyed hinv.idsNodup hfe
  obtain ⟨hs1, hs2, hs3, hs4⟩ := sellStep_structure hbids hinv hfe
  exact
    { bidKeyed := hp2
      askKeyed := by rw [hp1]; exact hinv.askKeyed
      bidSorted := hs1
      askSorted := by rw [hp1]; exact hinv.askSorted
      bidNe := hs2
      askNe := by rw [hp1]; exact hinv.askNe
      bidQty := hs3
      askQty := by rw [hp1]; exact hinv.askQty
      idsNodup := hinv.idsNodup.sublist hp3 }

/-- Mirror of `matchBuyLoop_structure` for the sell loop on the bids. -/
theorem matchSellLoop_structure (fuel : Nat) :
    ∀ (b : OrderBook) (taker : OrderRequest) (b₁ : OrderBook) (t₁ : OrderRequest)
      (ts : List Trade),
      BookInv b →
      matchSellLoop fuel b taker = (b₁, t₁, ts) →
      BookInv b₁ ∧ b₁.asks = b.asks ∧
      (∀ k₁ lvl₁ rest₁, b₁.bids = (k₁, lvl₁) :: rest₁ →
        ∃ k₀ lvl₀ rest₀, b.bids = (k₀, lvl₀) :: rest₀ ∧ k₀ ≤ k₁) ∧
      (taker.quantity + 1 ≤ fuel →
        t₁.quantity = 0 ∨ b₁.bids = [] ∨
        ∃ k₁ lvl₁ rest₁, b₁.bids = (k₁, lvl₁) :: rest₁ ∧
          (-k₁ < t₁.price ∨ findEligible t₁.trader_id lvl₁ = none)) := by
  induction fuel with
  | zero =>
    intro b taker b₁ t₁ ts hinv hres
    rw [matchSellLoop] at hres
    obtain ⟨rfl, rfl, rfl⟩ : b = b₁ ∧ taker = t₁ ∧ [] = ts := by
      simpa using hres
    exact ⟨hinv, rfl, fun k₁ lvl₁ rest₁ h₁ => ⟨k₁, lvl₁, rest₁, h₁, le_refl _⟩,
      fun hf => absurd hf (by omega)⟩
  | succ fuel ih =>
    intro b taker b₁ t₁ ts hinv hres
    cases hbids : b.bids with
    | nil =>
      simp only [matchSellLoop, hbids] at hres
      obtain ⟨rfl, rfl, rfl⟩ : b = b₁ ∧ taker = t₁ ∧ [] = ts := by
        simpa using hres
      refine ⟨hinv, rfl, ?_, fun _ => Or.inr (Or.inl hbids)⟩
      intro k₁ lvl₁ rest₁ h₁
      rw [hbids] at h₁
      cases h₁
    | cons kl rest =>
      obtain ⟨k, lvl⟩ := kl
      by_cases hguard : taker.quantity > 0 ∧ taker.price ≤ -k
      · cases hfe : findEligible taker.trader_id lvl with
        | none =>
          simp only [matchSellLoop, hbids, hfe] at hres
          rw [if_pos hguard] at hres
          obtain ⟨rfl, rfl, rfl⟩ : b = b₁ ∧ taker = t₁ ∧ [] = ts := by
            simpa using hres
          exact ⟨hinv, rfl, fun k₁ lvl₁ rest₁ h₁ => ⟨k₁, lvl₁, rest₁, hbids ▸ h₁, le_refl _⟩,
            fun _ => Or.inr (Or.inr ⟨k, lvl, rest, hbids, Or.inr hfe⟩)⟩
        | some maker =>
          rw [matchSellLoop_succ_some fuel hbids hguard.1 hguard.2 hfe] at hres
          obtain ⟨⟨bF, tF, tsF⟩, hrec⟩ :
              ∃ r : OrderBook × OrderRequest × List Trade,
                matchSellLoop fuel (sellStepBook b taker maker k lvl rest)
                  (stepTaker taker maker) = r := ⟨_, rfl⟩
          rw [hrec] at hres
          obtain ⟨rfl, rfl, rfl⟩ : bF = b₁ ∧ tF = t₁ ∧ stepTrade taker maker :: tsF = ts := by
            simpa using hres
          have hinv₂ := sellStep_bookInv hbids hinv hfe
          obtain ⟨hp1, -, -, -⟩ := sellStep_props hbids hinv.bidKeyed hinv.idsNodup hfe
          obtain ⟨-, -, -, hs4⟩ := sellStep_structure hbids hinv hfe
          obtain ⟨ih1, ih2, ih3, ih4⟩ :=
            ih (sellStepBook b taker maker k lvl rest) (stepTaker taker maker)
              bF tF tsF hinv₂ hrec
          refine ⟨ih1, by rw [ih2, hp1], ?_, ?_⟩
          · intro k₁ lvl₁ rest₁ h₁
            obtain ⟨k₂, lvl₂, rest₂, h₂, hk₂⟩ := ih3 k₁ lvl₁ rest₁ h₁
            exact ⟨k, lvl, rest, rfl, le_trans (hs4 k₂ lvl₂ rest₂ h₂) hk₂⟩
          · intro hfuel
            have hmq : 0 < maker.quantity :=
              hinv.bidQty (k, lvl) (by rw [hbids]; exact List.mem_cons_self _ _)
                maker (findEligible_mem hfe)
            have htq : 0 < tradeQty taker maker := by
              rw [tradeQty]
              exact lt_min hguard.1 hmq
            refine ih4 ?_
            have : (stepTaker taker maker).quantity = taker.quantity - tradeQty taker maker := rfl
            omega
      · simp only [matchSellLoop, hbids] at hres
        rw [if_neg hguard] at hres
        obtain ⟨rfl, rfl, rfl⟩ : b = b₁ ∧ taker = t₁ ∧ [] = ts := by
          simpa using hres
        refine ⟨hinv, rfl, fun k₁ lvl₁ rest₁ h₁ => ⟨k₁, lvl₁, rest₁, hbids ▸ h₁, le_refl _⟩, ?_⟩
        intro hfuel
        rw [not_and_or] at hguard
        rcases hguard with hg | hg
        · left
          omega
        · exact Or.inr (Or.inr ⟨k, lvl, rest, hbids, Or.inl (by omega)⟩)

/-! ### Best-price helpers for the non-crossing analysis -/

/-- The FIFO at the best bid price (empty when no bids). -/
def bestBidLevel (b : OrderBook) : Level :=
  match b.bids with
  | [] => []
  | (_, lvl) :: _ => lvl

/-- The FIFO at the best ask price (empty when no asks). -/
def bestAskLevel (b : OrderBook) : Level :=
  match b.asks with
  | [] => []
  | (_, lvl) :: _ => lvl

theorem bestBid_congr {b₁ b₂ : OrderBook} (h : b₁.bids = b₂.bids) :
    bestBid b₁ = bestBid b₂ := by
  rw [bestBid, bestBid, h]

theorem bestAsk_congr {b₁ b₂ : OrderBook} (h : b₁.asks = b₂.asks) :
    bestAsk b₁ = bestAsk b₂ := by
  rw [bestAsk, bestAsk, h]

theorem bestAsk_of_cons {b : OrderBook} {k : Int} {lvl : Level} {rest : HalfBook}
    (h : b.asks = (k, lvl) :: rest) : bestAsk b = some k := by
  rw [bestAsk, h]

theorem bestBid_of_cons {b : OrderBook} {k : Int} {lvl : Level} {rest : HalfBook}
    (h : b.bids = (k, lvl) :: rest) : bestBid b = some (-k) := by
  rw [bestBid, h]

theorem bestAsk_some_elim {b : OrderBook} {q : Int} (h : bestAsk b = some q) :
    ∃ lvl rest, b.asks = (q, lvl) :: rest := by
  rw [bestAsk] at h
  cases hb : b.asks with
  | nil => rw [hb] at h; cases h
  | cons kl rest =>
    obtain ⟨k, lvl⟩ := kl
    rw [hb] at h
    simp at h
    exact ⟨lvl, rest, by rw [h]⟩

theorem bestBid_some_elim {b : OrderBook} {p : Int} (h : bestBid b = some p) :
    ∃ lvl rest, b.bids = (-p, lvl) :: rest := by
  rw [bestBid] at h
  cases hb : b.bids with
  | nil => rw [hb] at h; cases h
  | cons kl rest =>
    obtain ⟨k, lvl⟩ := kl
    rw [hb] at h
    simp at h
    exact ⟨lvl, rest, by rw [← h]; simp⟩

theorem addOrder_buy_asks {b : OrderBook} {o : OrderRequest} (h : o.side = Side.BUY) :
    (addOrder b o).asks = b.asks := by
  rw [addOrder, if_pos h]

theorem addOrder_buy_bids {b : OrderBook} {o : OrderRequest} (h : o.side = Side.BUY) :
    (addOrder b o).bids = insertLevel (-o.price) o b.bids := by
  rw [addOrder, if_pos h]

theorem addOrder_sell_bids {b : OrderBook} {o : OrderRequest} (h : o.side = Side.SELL) :
    (addOrder b o).bids = b.bids := by
  have hnb : ¬(o.side = Side.BUY) := by rw [h]; intro hc; cases hc
  rw [addOrder, if_neg hnb]

theorem addOrder_sell_asks {b : OrderBook} {o : OrderRequest} (h : o.side = Side.SELL) :
    (addOrder b o).asks = insertLevel o.price o b.asks := by
  have hnb : ¬(o.side = Side.BUY) := by rw [h]; intro hc; cases hc
  rw [addOrder, if_neg hnb]

/-- After a BUY is processed on a non-crossed well-formed book, the book is
still non-crossed, or it is crossed and both best levels hold only the
incoming trader's orders. -/
theorem noncross_after_buy {b : OrderBook} {o : OrderRequest} {ts : List Trade}
    {b' : OrderBook}
    (hside : o.side = Side.BUY)
    (hinv : BookInv b)
    (hnc : ∀ p q, bestBid b = some p → bestAsk b = some q → p < q)
    (hres : processOrder b o = (ts, b')) :
    ∀ p q, bestBid b' = some p → bestAsk b' = some q →
      p < q ∨ (q ≤ p ∧ (∀ x ∈ bestBidLevel b', x.trader_id = o.trader_id) ∧
        (∀ x ∈ bestAskLevel b', x.trader_id = o.trader_id)) := by
  obtain ⟨⟨b₁, o₁, ts₀⟩, hloop⟩ :
      ∃ r : OrderBook × OrderRequest × List Trade, engineLoop b o = r := ⟨_, rfl⟩
  rw [processOrder, hloop] at hres
  obtain ⟨rfl, rfl⟩ : ts₀ = ts ∧ (if o₁.quantity > 0 then addOrder b₁ o₁ else b₁) = b' := by
    simpa using hres
  rw [engineLoop, if_pos hside] at hloop
  obtain ⟨hinv₁, hbids₁, hevol, hexit⟩ :=
    matchBuyLoop_structure (engineFuel b o) b o b₁ o₁ ts₀ hinv hloop
  have hframe := (matchBuyLoop_frame (engineFuel b o) b o).1
  rw [hloop] at hframe
  have ho₁ : o₁ = { o with quantity := o₁.quantity } := by simpa using hframe
  have ho₁p : o₁.price = o.price := by rw [ho₁]
  have ho₁t : o₁.trader_id = o.trader_id := by rw [ho₁]
  have ho₁s : o₁.side = Side.BUY := by rw [ho₁]; exact hside
  have hE := hexit (by rw [engineFuel]; omega)
  by_cases hq : o₁.quantity > 0
  · rw [if_pos hq]
    intro p q hp hq'
    have hasksEq : (addOrder b₁ o₁).asks = b₁.asks := addOrder_buy_asks ho₁s
    have hq₁ : bestAsk b₁ = some q := by rw [← bestAsk_congr hasksEq]; exact hq'
    obtain ⟨lvl₁, rest₁, hasks₁⟩ := bestAsk_some_elim hq₁
    obtain ⟨k₀, lvl₀, rest₀, hasks₀, hk₀⟩ := hevol q lvl₁ rest₁ hasks₁
    have hq₀ : bestAsk b = some k₀ := bestAsk_of_cons hasks₀
    rcases hE with hE | hE | ⟨k₂, lvl₂, rest₂, hasks₂, hE3⟩
    · omega
    · rw [hE] at hasks₁
      cases hasks₁
    · rw [hasks₂] at hasks₁
      obtain ⟨⟨hk₂q, hlvl₂⟩, hrest₂⟩ :
          (k₂ = q ∧ lvl₂ = lvl₁) ∧ rest₂ = rest₁ := by simpa using hasks₁
      by_cases hcross : o₁.price < q
      · -- the remainder rests strictly below the best ask
        left
        obtain ⟨lvlI, restI, hcase⟩ := insertLevel_head_cases (-o₁.price) o₁ b₁.bids
        rcases hcase with hI | ⟨kh, lvlh, resth, hbh, hI⟩
        · have hbb : bestBid (addOrder b₁ o₁) = some o₁.price := by
            rw [bestBid, addOrder_buy_bids ho₁s, hI]
            simp
          rw [hbb] at hp
          have hpeq : o₁.price = p := by simpa using hp
          omega
        · have hbb : bestBid (addOrder b₁ o₁) = some (-kh) := by
            rw [bestBid, addOrder_buy_bids ho₁s, hI]
          rw [hbb] at hp
          have hpeq : -kh = p := by simpa using hp
          have hbbids : b.bids = (kh, lvlh) :: resth := by rw [← hbids₁]; exact hbh
          have hlt : -kh < k₀ := hnc _ _ (bestBid_of_cons hbbids) hq₀
          omega
      · -- the remainder rests crossing: self-trade block at the best level
        right
        have hko : q ≤ o₁.price := by omega
        have hfe : findEligible o₁.trader_id lvl₂ = none := by
          rcases hE3 with hE3 | hE3
          · omega
          · exact hE3
        have halll : ∀ x ∈ lvl₁, x.trader_id = o.trader_id := by
          intro x hx
          have := (findEligible_eq_none.mp hfe) x (by rw [hlvl₂]; exact hx)
          rw [← ho₁t]
          exact this
        have haskLevel : bestAskLevel (addOrder b₁ o₁) = lvl₁ := by
          rw [bestAskLevel, hasksEq, hasks₂]
          exact hlvl₂
        cases hb₁bids : b₁.bids with
        | nil =>
          have hbids' : (addOrder b₁ o₁).bids = [(-o₁.price, [o₁])] := by
            rw [addOrder_buy_bids ho₁s, hb₁bids, insertLevel_nil]
          have hbb : bestBid (addOrder b₁ o₁) = some o₁.price := by
            rw [bestBid, hbids']
            simp
          rw [hbb] at hp
          have hpeq : o₁.price = p := by simpa using hp
          refine ⟨by omega, ?_, ?_⟩
          · intro x hx
            rw [bestBidLevel, hbids'] at hx
            have : x = o₁ := by simpa using hx
            rw [this, ho₁t]
          · rw [haskLevel]
            exact halll
        | cons klh resth =>
          obtain ⟨kh, lvlh⟩ := klh
          have hbbids : b.bids = (kh, lvlh) :: resth := by rw [← hbids₁]; exact hb₁bids
          have hlt : -kh < k₀ := hnc _ _ (bestBid_of_cons hbbids) hq₀
          have hstrict : -o₁.price < kh := by omega
          have hbids' : (addOrder b₁ o₁).bids =
              (-o₁.price, [o₁]) :: (kh, lvlh) :: resth := by
            rw [addOrder_buy_bids ho₁s, hb₁bids, insertLevel_cons_lt o₁ lvlh resth hstrict]
          have hbb : bestBid (addOrder b₁ o₁) = some o₁.price := by
            rw [bestBid, hbids']
            simp
          rw [hbb] at hp
          have hpeq : o₁.price = p := by simpa using hp
          refine ⟨by omega, ?_, ?_⟩
          · intro x hx
            rw [bestBidLevel, hbids'] at hx
            have : x = o₁ := by simpa using hx
            rw [this, ho₁t]
          · rw [haskLevel]
            exact halll
  · rw [if_neg hq]
    intro p q hp hq'
    left
    have hpb : bestBid b = some p := by rw [← bestBid_congr hbids₁]; exact hp
    obtain ⟨lvl₁, rest₁, hasks₁⟩ := bestAsk_some_elim hq'
    obtain ⟨k₀, lvl₀, rest₀, hasks₀, hk₀⟩ := hevol q lvl₁ rest₁ hasks₁
    have hlt := hnc p k₀ hpb (bestAsk_of_cons hasks₀)
    omega

/-- Mirror of `noncross_after_buy` for an incoming SELL. -/
theorem noncross_after_sell {b : OrderBook} {o : OrderRequest} {ts : List Trade}
    {b' : OrderBook}
    (hside : o.side = Side.SELL)
    (hinv : BookInv b)
    (hnc : ∀ p q, bestBid b = some p → bestAsk b = some q → p < q)
    (hres : processOrder b o = (ts, b')) :
    ∀ p q, bestBid b' = some p → bestAsk b' = some q →
      p < q ∨ (q ≤ p ∧ (∀ x ∈ bestBidLevel b', x.trader_id = o.trader_id) ∧
        (∀ x ∈ bestAskLevel b', x.trader_id = o.trader_id)) := by
  have hnb : ¬(o.side = Side.BUY) := by rw [hside]; intro hc; cases hc
  obtain ⟨⟨b₁, o₁, ts₀⟩, hloop⟩ :
      ∃ r : OrderBook × OrderRequest × List Trade, engineLoop b o = r := ⟨_, rfl⟩
  rw [processOrder, hloop] at hres
  obtain ⟨rfl, rfl⟩ : ts₀ = ts ∧ (if o₁.quantity > 0 then addOrder b₁ o₁ else b₁) = b' := by
    simpa using hres
  rw [engineLoop, if_neg hnb] at hloop
  obtain ⟨hinv₁, hasks₁, hevol, hexit⟩ :=
    matchSellLoop_structure (engineFuel b o) b o b₁ o₁ ts₀ hinv hloop
  have hframe := (matchSellLoop_frame (engineFuel b o) b o).1
  rw [hloop] at hframe
  have ho₁ : o₁ = { o with quantity := o₁.quantity } := by simpa using hframe
  have ho₁p : o₁.price = o.price := by rw [ho₁]
  have ho₁t : o₁.trader_id = o.trader_id := by rw [ho₁]
  have ho₁s : o₁.side = Side.SELL := by rw [ho₁]; exact hside
  have hE := hexit (by rw [engineFuel]; omega)
  by_cases hq : o₁.quantity > 0
  · rw [if_pos hq]
    intro p q hp hq'
    have hbidsEq : (addOrder b₁ o₁).bids = b₁.bids := addOrder_sell_bids ho₁s
    have hp₁ : bestBid b₁ = some p := by rw [← bestBid_congr hbidsEq]; exact hp
    obtain ⟨lvl₁, rest₁, hbids₁⟩ := bestBid_some_elim hp₁
    obtain ⟨k₀, lvl₀, rest₀, hbids₀, hk₀⟩ := hevol (-p) lvl₁ rest₁ hbids₁
    have hp₀ : bestBid b = some (-k₀) := bestBid_of_cons hbids₀
    rcases hE with hE | hE | ⟨k₂, lvl₂, rest₂, hbids₂, hE3⟩
    · omega
    · rw [hE] at hbids₁
      cases hbids₁
    · rw [hbids₂] at hbids₁
      obtain ⟨⟨hk₂q, hlvl₂⟩, hrest₂⟩ :
          (k₂ = -p ∧ lvl₂ = lvl₁) ∧ rest₂ = rest₁ := by simpa using hbids₁
      by_cases hcross : -k₂ < o₁.price
      · -- the remainder rests strictly above the best bid
        left
        obtain ⟨lvlI, restI, hcase⟩ := insertLevel_head_cases o₁.price o₁ b₁.asks
        rcases hcase with hI | ⟨kh, lvlh, resth, hah, hI⟩
        · have hba : bestAsk (addOrder b₁ o₁) = some o₁.price := by
            rw [bestAsk, addOrder_sell_asks ho₁s, hI]
          rw [hba] at hq'
          have hqeq : o₁.price = q := by simpa using hq'
          omega
        · have hba : bestAsk (addOrder b₁ o₁) = some kh := by
            rw [bestAsk, addOrder_sell_asks ho₁s, hI]
          rw [hba] at hq'
          have hqeq : kh = q := by simpa using hq'
          have hbasks : b.asks = (kh, lvlh) :: resth := by rw [← hasks₁]; exact hah
          have hlt : -k₀ < kh := hnc _ _ hp₀ (bestAsk_of_cons hbasks)
          omega
      · -- the remainder rests crossing: self-trade block at the best level
        right
        have hko : o₁.price ≤ -k₂ := by omega
        have hfe : findEligible o₁.trader_id lvl₂ = none := by
          rcases hE3 with hE3 | hE3
          · omega
          · exact hE3
        have halll : ∀ x ∈ lvl₁, x.trader_id = o.trader_id := by
          intro x hx
          have := (findEligible_eq_none.mp hfe) x (by rw [hlvl₂]; exact hx)
          rw [← ho₁t]
          exact this
        have hbidLevel : bestBidLevel (addOrder b₁ o₁) = lvl₁ := by
          rw [bestBidLevel, hbidsEq, hbids₂]
          exact hlvl₂
        cases hb₁asks : b₁.asks with
        | nil =>
          have hasks' : (addOrder b₁ o₁).asks = [(o₁.price, [o₁])] := by
            rw [addOrder_sell_asks ho₁s, hb₁asks, insertLevel_nil]
          have hba : bestAsk (addOrder b₁ o₁) = some o₁.price := by
            rw [bestAsk, hasks']
          rw [hba] at hq'
          have hqeq : o₁.price = q := by simpa using hq'
          refine ⟨by omega, ?_, ?_⟩
          · rw [hbidLevel]
            exact halll
          · intro x hx
            rw [bestAskLevel, hasks'] at hx
            have : x = o₁ := by simpa using hx
            rw [this, ho₁t]
        | cons klh resth =>
          obtain ⟨kh, lvlh⟩ := klh
          have hbasks : b.asks = (kh, lvlh) :: resth := by rw [← hasks₁]; exact hb₁asks
          have hlt : -k₀ < kh := hnc _ _ hp₀ (bestAsk_of_cons hbasks)
          have hstrict : o₁.price < kh := by omega
          have hasks' : (addOrder b₁ o₁).asks =
              (o₁.price, [o₁]) :: (kh, lvlh) :: resth := by
            rw [addOrder_sell_asks ho₁s, hb₁asks, insertLevel_cons_lt o₁ lvlh resth hstrict]
          have hba : bestAsk (addOrder b₁ o₁) = some o₁.price := by
            rw [bestAsk, hasks']
          rw [hba] at hq'
          have hqeq : o₁.price = q := by simpa using hq'
          refine ⟨by omega, ?_, ?_⟩
          · rw [hbidLevel]
            exact halll
          · intro x hx
            rw [bestAskLevel, hasks'] at hx
            have : x = o₁ := by simpa using hx
            rw [this, ho₁t]
  · rw [if_neg hq]
    intro p q hp hq'
    left
    have hqa : bestAsk b = some q := by rw [← bestAsk_congr hasks₁]; exact hq'
    obtain ⟨lvl₁, rest₁, hbids₁⟩ := bestBid_some_elim hp
    obtain ⟨k₀, lvl₀, rest₀, hbids₀, hk₀⟩ := hevol (-p) lvl₁ rest₁ hbids₁
    have hlt := hnc (-k₀) q (bestBid_of_cons hbids₀) hqa
    omega

/-! ### C4: counterexample trace and the amended per-call theorem -/

/-- SELL 10@100 from trader 7. -/
def cxSellT : OrderRequest :=
  { order_id := 11, timestamp := 1, trader_id := 7, side := Side.SELL,
    priority := 1, price := 100, quantity := 10 }

/-- SELL 10@101 from trader 8. -/
def cxSellB : OrderRequest :=
  { order_id := 12, timestamp := 2, trader_id := 8, side := Side.SELL,
    priority := 1, price := 101, quantity := 10 }

/-- BUY 10@102 from trader 7 (self-trade-blocked at the best ask level). -/
def cxBuyT : OrderRequest :=
  { order_id := 13, timestamp := 3, trader_id := 7, side := Side.BUY,
    priority := 1, price := 102, quantity := 10 }

/-- The three-order submission sequence refuting C4 as stated. -/
def cxTrace : List OrderRequest := [cxSellT, cxSellB, cxBuyT]

/-- C4 is false as stated: after the third `process_order` call of `cxTrace`
both sides are non-empty, the book is crossed (best bid 102 ≥ best ask 100),
and the remaining opposing crossing orders do NOT all belong to the same
trader: trader 7's resting bid at 102 crosses trader 8's resting ask at
101. -/
theorem claim_C4_counterexample :
    bestBid (runFromEmpty cxTrace).1 = some 102 ∧
    bestAsk (runFromEmpty cxTrace).1 = some 100 ∧
    ¬((102 : Int) < 100) ∧
    ∃ x ∈ halfOrders (runFromEmpty cxTrace).1.bids,
      ∃ y ∈ halfOrders (runFromEmpty cxTrace).1.asks,
        y.price ≤ x.price ∧ x.trader_id ≠ y.trader_id := by
  decide

/-- C4 (amended): after `process_order` on a well-formed book that was
non-crossed at entry, whenever both sides are non-empty either
`best_bid < best_ask` again, or the book is crossed and every order at the
best bid level and at the best ask level belongs to the incoming order's
trader. -/
theorem claim_C4_noncross_amended (b : OrderBook) (o : OrderRequest)
    (ts : List Trade) (b' : OrderBook)
    (hinv : BookInv b)
    (hnc : ∀ p q, bestBid b = some p → bestAsk b = some q → p < q)
    (hres : processOrder b o = (ts, b')) :
    ∀ p q, bestBid b' = some p → bestAsk b' = some q →
      p < q ∨ (q ≤ p ∧ (∀ x ∈ bestBidLevel b', x.trader_id = o.trader_id) ∧
        (∀ x ∈ bestAskLevel b', x.trader_id = o.trader_id)) := by
  by_cases hside : o.side = Side.BUY
  · exact noncross_after_buy hside hinv hnc hres
  · have hsell : o.side = Side.SELL := by
      cases hs : o.side
      · exact absurd hs hside
      · rfl
    exact noncross_after_sell hsell hinv hnc hres

/-- Witness for the amended C4: the self-trade-blocked BUY leaves `exBook3`
crossed with both best levels owned by trader 20. -/
theorem claim_C4_noncross_amended_witness :
    (102 : Int) < 100 ∨ ((100 : Int) ≤ 102 ∧
      (∀ x ∈ bestBidLevel (addOrder exBook3 exBuyT20), x.trader_id = exBuyT20.trader_id) ∧
      (∀ x ∈ bestAskLevel (addOrder exBook3 exBuyT20), x.trader_id = exBuyT20.trader_id)) :=
  claim_C4_noncross_amended exBook3 exBuyT20 [] (addOrder exBook3 exBuyT20)
    ⟨by unfold BidKeyed; decide, by unfold AskKeyed; decide, by decide, by decide,
      by unfold LevelsNonempty; decide, by unfold LevelsNonempty; decide,
      by unfold QtyPos; decide, by unfold QtyPos; decide, by decide⟩
    (fun p q hp _ => by
      rw [show bestBid exBook3 = none from by decide] at hp
      cases hp)
    (by decide) 102 100 (by decide) (by decide)

end OrderBookSim
